import Mathlib

/-!
Verification of the curadoria utilities: a manifest generator
(`generate-stack.py`) and a manifest copier (`generate-github-base.py`),
each present in an imperative variant (`curadoria/`) and a functional
variant (`my/curadoria/`).

The embedding models:
* parsed JSON values (`Json`) and the two path extractors
  (`_extract_paths` from the imperative script, `extract_paths` from the
  functional script);
* filesystem paths (`PPath`), a filesystem state (`FS`) with an explicit
  oracle for I/O failures, and the two copiers (`_copy_paths` and
  `copy_files_batch`) plus `aggregate_results` / `CopyStats`;
* directory trees (`FSTree`), the two scanners (`list_directory` and
  `process_directory`) and the frontmatter description extraction, where
  the two source regexes are translated into explicit backtracking
  matchers over `List Char`.

Machine integers do not occur; Python's arbitrary-precision ints map to
`Nat`/`Int`, and the float `success_rate` is modelled exactly over `ℚ`.
-/

/-! ## JSON values

Python's `json.load` produces `dict | list | str | int | float | bool | None`.
Floats are irrelevant to every claim, so numbers are modelled as `Int`.
Objects keep their fields in order; keys are unique in a parsed Python dict,
and lookups take the first matching field.  Lists and objects are given by
mutually inductive spine types so that all recursions below are structural
(hence kernel-computable). -/

mutual
inductive Json where
  | null : Json
  | bool (b : Bool) : Json
  | num (n : Int) : Json
  | str (s : String) : Json
  | arr (items : JsonList) : Json
  | obj (fields : JsonFields) : Json
deriving DecidableEq

inductive JsonList where
  | nil : JsonList
  | cons (hd : Json) (tl : JsonList) : JsonList
deriving DecidableEq

inductive JsonFields where
  | nil : JsonFields
  | cons (key : String) (val : Json) (tl : JsonFields) : JsonFields
deriving DecidableEq
end

/-- `fields.get(k)` on a Python dict (first matching key). -/
def JsonFields.lookup : JsonFields → String → Option Json
  | .nil, _ => none
  | .cons k v tl, key => if k = key then some v else tl.lookup key

/-- `k in fields` on a Python dict. -/
def JsonFields.hasKey : JsonFields → String → Bool
  | .nil, _ => false
  | .cons k _ tl, key => k = key || tl.hasKey key

/-- Python truthiness of a parsed JSON value (`if x:`). -/
def Json.truthy : Json → Bool
  | .null => false
  | .bool b => b
  | .num n => n ≠ 0
  | .str s => s ≠ ""
  | .arr .nil => false
  | .arr _ => true
  | .obj .nil => false
  | .obj _ => true

/-! ### `_extract_paths` — imperative variant
(`curadoria/generate-github-base.py`, lines 22–43)

```python
if isinstance(data, str): return [data]
if isinstance(data, dict):
    if "files" in data:
        return _extract_paths(data.get("files"))
    path = data.get("path")
    return [path] if isinstance(path, str) else []
if isinstance(data, list):
    paths = []
    for item in data: paths.extend(_extract_paths(item))
    return paths
return []
```

The recursion into the value of the `"files"` key is phrased as a scan of
the field spine (`extractPathsFiles`) so that it is structural; the
bridge lemma `extractPathsFiles_lookup` below shows it agrees with
"look up `files`, then recurse". -/

mutual
def extractPaths : Json → List String
  | .str s => [s]
  | .obj fields =>
      if fields.hasKey "files" then extractPathsFiles fields
      else
        match fields.lookup "path" with
        | some (.str p) => [p]
        | _ => []
  | .arr items => extractPathsList items
  | .null => []
  | .bool _ => []
  | .num _ => []

def extractPathsFiles : JsonFields → List String
  | .nil => []
  | .cons k v tl => if k = "files" then extractPaths v else extractPathsFiles tl

def extractPathsList : JsonList → List String
  | .nil => []
  | .cons j tl => extractPaths j ++ extractPathsList tl
end

/-! ### `extract_paths` — functional variant
(`my/curadoria/generate-github-base.py`, lines 113–142)

```python
match data:
    case str(): return [data]
    case dict():
        if "files" in data:
            return extract_paths(data["files"])
        if path := data.get("path"):
            return [path] if isinstance(path, str) else []
        return []
    case list():
        return reduce(lambda acc, item: acc + extract_paths(item), data, [])
    case _: return []
```

The walrus test `if path := data.get("path"):` is a Python truthiness
check: a field holding the empty string (or `0`, `false`, `null`, an
empty list or object) falls through to `return []`. -/

mutual
def extractPathsF : Json → List String
  | .str s => [s]
  | .obj fields =>
      if fields.hasKey "files" then extractPathsFFiles fields
      else
        match fields.lookup "path" with
        | some v =>
            if v.truthy then
              match v with
              | .str p => [p]
              | _ => []
            else []
        | none => []
  | .arr items => extractPathsFList items
  | .null => []
  | .bool _ => []
  | .num _ => []

def extractPathsFFiles : JsonFields → List String
  | .nil => []
  | .cons k v tl => if k = "files" then extractPathsF v else extractPathsFFiles tl

def extractPathsFList : JsonList → List String
  | .nil => []
  | .cons j tl => extractPathsF j ++ extractPathsFList tl
end

/-- Bridge: scanning the spine for `"files"` is the same as looking the key
up and recursing, which is literally what the Python source does. -/
theorem extractPathsFiles_lookup :
    ∀ (fields : JsonFields) (v : Json),
      fields.lookup "files" = some v → extractPathsFiles fields = extractPaths v
  | .nil, v, h => by simp [JsonFields.lookup] at h
  | .cons k w tl, v, h => by
    by_cases hk : k = "files"
    · subst hk
      simp [JsonFields.lookup] at h
      simp [extractPathsFiles, h]
    · simp [JsonFields.lookup, hk] at h
      simp [extractPathsFiles, hk, extractPathsFiles_lookup tl v h]

theorem extractPathsFFiles_lookup :
    ∀ (fields : JsonFields) (v : Json),
      fields.lookup "files" = some v → extractPathsFFiles fields = extractPathsF v
  | .nil, v, h => by simp [JsonFields.lookup] at h
  | .cons k w tl, v, h => by
    by_cases hk : k = "files"
    · subst hk
      simp [JsonFields.lookup] at h
      simp [extractPathsFFiles, h]
    · simp [JsonFields.lookup, hk] at h
      simp [extractPathsFFiles, hk, extractPathsFFiles_lookup tl v h]

theorem extractPaths_check_str : extractPaths (.str "a/b.md") = ["a/b.md"] := by decide

theorem extractPaths_check_path : extractPaths (.obj (.cons "path" (.str "x") .nil)) = ["x"] := by decide

theorem extractPaths_check_emptyObj : extractPaths (.obj .nil) = [] := by decide

theorem extractPaths_check_emptyPath : extractPaths (.obj (.cons "path" (.str "") .nil)) = [""] := by decide

theorem extractPathsF_check_emptyPath : extractPathsF (.obj (.cons "path" (.str "") .nil)) = [] := by decide

theorem extractPathsF_check_list :
    extractPathsF (.arr (.cons (.obj (.cons "path" (.str "x") .nil))
      (.cons (.obj (.cons "path" (.str "y") .nil)) .nil))) = ["x", "y"] := by decide

theorem JsonFields.hasKey_eq_isSome :
    ∀ (fields : JsonFields) (k : String),
      fields.hasKey k = (fields.lookup k).isSome
  | .nil, k => by simp [JsonFields.hasKey, JsonFields.lookup]
  | .cons k' v tl, k => by
    by_cases hk : k' = k
    · simp [JsonFields.hasKey, JsonFields.lookup, hk]
    · simp [JsonFields.hasKey, JsonFields.lookup, hk,
        JsonFields.hasKey_eq_isSome tl k]

theorem JsonFields.lookup_sizeOf :
    ∀ (fields : JsonFields) (k : String) (v : Json),
      fields.lookup k = some v → sizeOf v < sizeOf fields
  | .nil, k, v, h => by simp [JsonFields.lookup] at h
  | .cons k' w tl, k, v, h => by
    by_cases hk : k' = k
    · simp [JsonFields.lookup, hk] at h
      subst h
      simp
      omega
    · simp [JsonFields.lookup, hk] at h
      have := JsonFields.lookup_sizeOf tl k v h
      simp
      omega

/-! ### Spec-side extractors (for claim C3)

`specExtract` is written from the specification's words, not from the
code: "a string value is itself one path; a mapping containing a `files`
key recurses into that key's value; otherwise a mapping with a `path`
string key yields that single path; a sequence recurses into each element
and concatenates results in order; any other shape yields no paths."
It recurses directly through the looked-up value of `files`, so it is
defined by well-founded recursion on `sizeOf`.

`specExtractAmended` is the same precedence amended exactly where the
functional variant's truthiness test diverges: a mapping without a
`files` key whose `path` key holds the *empty* string yields no paths. -/

mutual
def specExtract (j : Json) : List String :=
  match j with
  | .str s => [s]
  | .obj fields =>
    match h : fields.lookup "files" with
    | some v => specExtract v
    | none =>
      match fields.lookup "path" with
      | some (.str p) => [p]
      | _ => []
  | .arr items => specExtractList items
  | .null => []
  | .bool _ => []
  | .num _ => []
termination_by sizeOf j
decreasing_by
  all_goals simp
  all_goals (have hsz := JsonFields.lookup_sizeOf fields "files" v h; omega)

def specExtractList (l : JsonList) : List String :=
  match l with
  | .nil => []
  | .cons j tl => specExtract j ++ specExtractList tl
termination_by sizeOf l
decreasing_by
  all_goals simp
  all_goals omega
end

mutual
def specExtractAmended (j : Json) : List String :=
  match j with
  | .str s => [s]
  | .obj fields =>
    match h : fields.lookup "files" with
    | some v => specExtractAmended v
    | none =>
      match fields.lookup "path" with
      | some (.str p) => if p = "" then [] else [p]
      | _ => []
  | .arr items => specExtractAmendedList items
  | .null => []
  | .bool _ => []
  | .num _ => []
termination_by sizeOf j
decreasing_by
  all_goals simp
  all_goals (have hsz := JsonFields.lookup_sizeOf fields "files" v h; omega)

def specExtractAmendedList (l : JsonList) : List String :=
  match l with
  | .nil => []
  | .cons j tl => specExtractAmended j ++ specExtractAmendedList tl
termination_by sizeOf l
decreasing_by
  all_goals simp
  all_goals omega
end

/-- Unfolding equation: an object with a `files` key delegates. -/
theorem specExtract_obj_files {fields : JsonFields} {v : Json}
    (h : fields.lookup "files" = some v) :
    specExtract (.obj fields) = specExtract v := by
  rw [specExtract]
  split
  · next v' h' =>
      rw [h] at h'
      cases h'
      rfl
  · next h' =>
      rw [h] at h'
      cases h'

/-- Unfolding equation: an object without a `files` key falls back to `path`. -/
theorem specExtract_obj_nofiles {fields : JsonFields}
    (h : fields.lookup "files" = none) :
    specExtract (.obj fields) =
      (match fields.lookup "path" with
       | some (.str p) => [p]
       | _ => []) := by
  rw [specExtract]
  split
  · next v' h' =>
      rw [h] at h'
      cases h'
  · rfl

theorem specExtractAmended_obj_files {fields : JsonFields} {v : Json}
    (h : fields.lookup "files" = some v) :
    specExtractAmended (.obj fields) = specExtractAmended v := by
  rw [specExtractAmended]
  split
  · next v' h' =>
      rw [h] at h'
      cases h'
      rfl
  · next h' =>
      rw [h] at h'
      cases h'

theorem specExtractAmended_obj_nofiles {fields : JsonFields}
    (h : fields.lookup "files" = none) :
    specExtractAmended (.obj fields) =
      (match fields.lookup "path" with
       | some (.str p) => if p = "" then [] else [p]
       | _ => []) := by
  rw [specExtractAmended]
  split
  · next v' h' =>
      rw [h] at h'
      cases h'
  · rfl

mutual
theorem extractPaths_eq_spec : ∀ j : Json, extractPaths j = specExtract j
  | .str s => by rw [extractPaths, specExtract]
  | .null => by rw [extractPaths, specExtract]
  | .bool b => by rw [extractPaths, specExtract]
  | .num n => by rw [extractPaths, specExtract]
  | .arr items => by
    rw [show extractPaths (.arr items) = extractPathsList items from rfl]
    rw [extractPathsList_eq_spec items]
    rw [specExtract]
  | .obj fields => by
    cases h : fields.lookup "files" with
    | some v =>
      have hk : fields.hasKey "files" = true := by
        simp [JsonFields.hasKey_eq_isSome, h]
      rw [show extractPaths (.obj fields) = extractPathsFiles fields by
        simp [extractPaths, hk]]
      rw [extractPathsFiles_lookup fields v h]
      rw [extractPaths_eq_spec_at fields "files" v h]
      rw [specExtract_obj_files h]
    | none =>
      have hk : fields.hasKey "files" = false := by
        simp [JsonFields.hasKey_eq_isSome, h]
      rw [specExtract_obj_nofiles h]
      simp only [extractPaths, hk, Bool.false_eq_true, if_false]

theorem extractPaths_eq_spec_at :
    ∀ (fields : JsonFields) (k : String) (v : Json),
      fields.lookup k = some v → extractPaths v = specExtract v
  | .nil, k, v, h => by simp [JsonFields.lookup] at h
  | .cons k' w tl, k, v, h => by
    by_cases hk : k' = k
    · simp [JsonFields.lookup, hk] at h
      subst h
      exact extractPaths_eq_spec w
    · simp [JsonFields.lookup, hk] at h
      exact extractPaths_eq_spec_at tl k v h

theorem extractPathsList_eq_spec :
    ∀ l : JsonList, extractPathsList l = specExtractList l
  | .nil => by rw [extractPathsList, specExtractList]
  | .cons j tl => by
    rw [show extractPathsList (.cons j tl) = extractPaths j ++ extractPathsList tl
      from rfl]
    rw [extractPaths_eq_spec j, extractPathsList_eq_spec tl]
    rw [specExtractList]
end

mutual
theorem extractPathsF_eq_spec : ∀ j : Json, extractPathsF j = specExtractAmended j
  | .str s => by rw [extractPathsF, specExtractAmended]
  | .null => by rw [extractPathsF, specExtractAmended]
  | .bool b => by rw [extractPathsF, specExtractAmended]
  | .num n => by rw [extractPathsF, specExtractAmended]
  | .arr items => by
    rw [show extractPathsF (.arr items) = extractPathsFList items from rfl]
    rw [extractPathsFList_eq_spec items]
    rw [specExtractAmended]
  | .obj fields => by
    cases h : fields.lookup "files" with
    | some v =>
      have hk : fields.hasKey "files" = true := by
        simp [JsonFields.hasKey_eq_isSome, h]
      rw [show extractPathsF (.obj fields) = extractPathsFFiles fields by
        simp [extractPathsF, hk]]
      rw [extractPathsFFiles_lookup fields v h]
      rw [extractPathsF_eq_spec_at fields "files" v h]
      rw [specExtractAmended_obj_files h]
    | none =>
      have hk : fields.hasKey "files" = false := by
        simp [JsonFields.hasKey_eq_isSome, h]
      rw [specExtractAmended_obj_nofiles h]
      cases hp : fields.lookup "path" with
      | none => simp [extractPathsF, hk, hp]
      | some v =>
        cases v with
        | str p =>
          by_cases hps : p = ""
          · subst hps
            simp [extractPathsF, hk, hp, Json.truthy]
          · simp [extractPathsF, hk, hp, Json.truthy, hps]
        | null => simp [extractPathsF, hk, hp, Json.truthy]
        | bool b => cases b <;> simp [extractPathsF, hk, hp, Json.truthy]
        | num n =>
          by_cases hn : n = 0 <;> simp [extractPathsF, hk, hp, Json.truthy, hn]
        | arr items =>
          cases items <;> simp [extractPathsF, hk, hp, Json.truthy]
        | obj flds =>
          cases flds <;> simp [extractPathsF, hk, hp, Json.truthy]

theorem extractPathsF_eq_spec_at :
    ∀ (fields : JsonFields) (k : String) (v : Json),
      fields.lookup k = some v → extractPathsF v = specExtractAmended v
  | .nil, k, v, h => by simp [JsonFields.lookup] at h
  | .cons k' w tl, k, v, h => by
    by_cases hk : k' = k
    · simp [JsonFields.lookup, hk] at h
      subst h
      exact extractPathsF_eq_spec w
    · simp [JsonFields.lookup, hk] at h
      exact extractPathsF_eq_spec_at tl k v h

theorem extractPathsFList_eq_spec :
    ∀ l : JsonList, extractPathsFList l = specExtractAmendedList l
  | .nil => by rw [extractPathsFList, specExtractAmendedList]
  | .cons j tl => by
    rw [show extractPathsFList (.cons j tl) = extractPathsF j ++ extractPathsFList tl
      from rfl]
    rw [extractPathsF_eq_spec j, extractPathsFList_eq_spec tl]
    rw [specExtractAmendedList]
end

/-! ### Agreement of the two extractor variants (claim C2)

`noEmptyPathStr` is true when no mapping reached by the extraction
(a mapping without a `files` key, or the value of a `files` key, or an
element of a sequence) maps `path` to the empty string.  On such values
the two variants agree; `{"path": ""}` itself is the witness that they
disagree elsewhere. -/

mutual
def noEmptyPathStr : Json → Bool
  | .obj fields =>
      if fields.hasKey "files" then noEmptyPathStrFiles fields
      else
        match fields.lookup "path" with
        | some (.str p) => p ≠ ""
        | _ => true
  | .arr items => noEmptyPathStrList items
  | .str _ => true
  | .null => true
  | .bool _ => true
  | .num _ => true

def noEmptyPathStrFiles : JsonFields → Bool
  | .nil => true
  | .cons k v tl => if k = "files" then noEmptyPathStr v else noEmptyPathStrFiles tl

def noEmptyPathStrList : JsonList → Bool
  | .nil => true
  | .cons j tl => noEmptyPathStr j && noEmptyPathStrList tl
end

mutual
theorem extract_variants_agree :
    ∀ j : Json, noEmptyPathStr j = true → extractPaths j = extractPathsF j
  | .str s, _ => rfl
  | .null, _ => rfl
  | .bool b, _ => rfl
  | .num n, _ => rfl
  | .arr items, h => by
    rw [show extractPaths (.arr items) = extractPathsList items from rfl]
    rw [show extractPathsF (.arr items) = extractPathsFList items from rfl]
    exact extract_variants_agree_list items (by simpa [noEmptyPathStr] using h)
  | .obj fields, h => by
    by_cases hk : fields.hasKey "files" = true
    · rw [show extractPaths (.obj fields) = extractPathsFiles fields by
        simp [extractPaths, hk]]
      rw [show extractPathsF (.obj fields) = extractPathsFFiles fields by
        simp [extractPathsF, hk]]
      exact extract_variants_agree_files fields
        (by simpa [noEmptyPathStr, hk] using h)
    · rw [Bool.not_eq_true] at hk
      cases hp : fields.lookup "path" with
      | none => simp [extractPaths, extractPathsF, hk, hp]
      | some v =>
        cases v with
        | str p =>
          have hpe : p ≠ "" := by
            simpa [noEmptyPathStr, hk, hp] using h
          simp [extractPaths, extractPathsF, hk, hp, Json.truthy, hpe]
        | null => simp [extractPaths, extractPathsF, hk, hp, Json.truthy]
        | bool b => cases b <;> simp [extractPaths, extractPathsF, hk, hp, Json.truthy]
        | num n =>
          by_cases hn : n = 0 <;>
            simp [extractPaths, extractPathsF, hk, hp, Json.truthy, hn]
        | arr items =>
          cases items <;> simp [extractPaths, extractPathsF, hk, hp, Json.truthy]
        | obj flds =>
          cases flds <;> simp [extractPaths, extractPathsF, hk, hp, Json.truthy]

theorem extract_variants_agree_files :
    ∀ fields : JsonFields, noEmptyPathStrFiles fields = true →
      extractPathsFiles fields = extractPathsFFiles fields
  | .nil, _ => rfl
  | .cons k v tl, h => by
    by_cases hk : k = "files"
    · simp only [extractPathsFiles, extractPathsFFiles, hk, if_true]
      exact extract_variants_agree v (by simpa [noEmptyPathStrFiles, hk] using h)
    · simp only [extractPathsFiles, extractPathsFFiles, hk, if_false]
      exact extract_variants_agree_files tl
        (by simpa [noEmptyPathStrFiles, hk] using h)

theorem extract_variants_agree_list :
    ∀ l : JsonList, noEmptyPathStrList l = true →
      extractPathsList l = extractPathsFList l
  | .nil, _ => rfl
  | .cons j tl, h => by
    have hb : noEmptyPathStr j = true ∧ noEmptyPathStrList tl = true := by
      simpa [noEmptyPathStrList, Bool.and_eq_true] using h
    rw [show extractPathsList (.cons j tl) = extractPaths j ++ extractPathsList tl
      from rfl]
    rw [show extractPathsFList (.cons j tl) = extractPathsF j ++ extractPathsFList tl
      from rfl]
    rw [extract_variants_agree j hb.1, extract_variants_agree_list tl hb.2]
end

/-! ### Fueled extractors (claim C10)

Python evaluates `_extract_paths` / `extract_paths` by recursive calls;
`extractPathsFuel` is the same computation as a step-indexed interpreter
that returns `none` when the fuel runs out.  The adequacy theorems below
show that fuel `sizeOf j` always suffices and the result is `some` of the
total function's value: the recursion is well-founded on the structure of
the JSON value, so the Python functions terminate on every finite input
and never raise. -/

mutual
def extractPathsFuel : Nat → Json → Option (List String)
  | 0, _ => none
  | _ + 1, .str s => some [s]
  | n + 1, .obj fields =>
      if fields.hasKey "files" then extractPathsFuelFiles n fields
      else
        some (match fields.lookup "path" with
              | some (.str p) => [p]
              | _ => [])
  | n + 1, .arr items => extractPathsFuelList n items
  | _ + 1, .null => some []
  | _ + 1, .bool _ => some []
  | _ + 1, .num _ => some []

def extractPathsFuelFiles : Nat → JsonFields → Option (List String)
  | 0, _ => none
  | _ + 1, .nil => some []
  | n + 1, .cons k v tl =>
      if k = "files" then extractPathsFuel n v else extractPathsFuelFiles n tl

def extractPathsFuelList : Nat → JsonList → Option (List String)
  | 0, _ => none
  | _ + 1, .nil => some []
  | n + 1, .cons j tl =>
      match extractPathsFuel n j, extractPathsFuelList n tl with
      | some a, some b => some (a ++ b)
      | _, _ => none
end

mutual
def extractPathsFFuel : Nat → Json → Option (List String)
  | 0, _ => none
  | _ + 1, .str s => some [s]
  | n + 1, .obj fields =>
      if fields.hasKey "files" then extractPathsFFuelFiles n fields
      else
        some (match fields.lookup "path" with
              | some v =>
                  if v.truthy then
                    match v with
                    | .str p => [p]
                    | _ => []
                  else []
              | none => [])
  | n + 1, .arr items => extractPathsFFuelList n items
  | _ + 1, .null => some []
  | _ + 1, .bool _ => some []
  | _ + 1, .num _ => some []

def extractPathsFFuelFiles : Nat → JsonFields → Option (List String)
  | 0, _ => none
  | _ + 1, .nil => some []
  | n + 1, .cons k v tl =>
      if k = "files" then extractPathsFFuel n v else extractPathsFFuelFiles n tl

def extractPathsFFuelList : Nat → JsonList → Option (List String)
  | 0, _ => none
  | _ + 1, .nil => some []
  | n + 1, .cons j tl =>
      match extractPathsFFuel n j, extractPathsFFuelList n tl with
      | some a, some b => some (a ++ b)
      | _, _ => none
end

mutual
theorem extractPathsFuel_adequate :
    ∀ (j : Json) (n : Nat), sizeOf j ≤ n →
      extractPathsFuel n j = some (extractPaths j)
  | .str s, n, h => by
    match n with
    | n + 1 => rfl
    | 0 => simp at h
  | .null, n, h => by
    match n with
    | n + 1 => rfl
    | 0 => simp at h
  | .bool b, n, h => by
    match n with
    | n + 1 => rfl
    | 0 => simp at h
  | .num m, n, h => by
    match n with
    | n + 1 => rfl
    | 0 => simp at h
  | .arr items, n, h => by
    match n with
    | n + 1 =>
      have hi : sizeOf items ≤ n := by simp at h; omega
      rw [show extractPathsFuel (n + 1) (.arr items) = extractPathsFuelList n items
        from rfl]
      rw [extractPathsFuelList_adequate items n hi]
      rfl
    | 0 => simp at h
  | .obj fields, n, h => by
    match n with
    | n + 1 =>
      have hf : sizeOf fields ≤ n := by simp at h; omega
      by_cases hk : fields.hasKey "files" = true
      · rw [show extractPathsFuel (n + 1) (.obj fields) = extractPathsFuelFiles n fields
          by simp [extractPathsFuel, hk]]
        rw [extractPathsFuelFiles_adequate fields n hf]
        simp [extractPaths, hk]
      · rw [Bool.not_eq_true] at hk
        simp [extractPathsFuel, extractPaths, hk]
    | 0 => simp at h

theorem extractPathsFuelFiles_adequate :
    ∀ (fields : JsonFields) (n : Nat), sizeOf fields ≤ n →
      extractPathsFuelFiles n fields = some (extractPathsFiles fields)
  | .nil, n, h => by
    match n with
    | n + 1 => rfl
    | 0 => simp at h
  | .cons k v tl, n, h => by
    match n with
    | n + 1 =>
      by_cases hk : k = "files"
      · have hv : sizeOf v ≤ n := by simp at h; omega
        simp only [extractPathsFuelFiles, extractPathsFiles, hk, if_true]
        exact extractPathsFuel_adequate v n hv
      · have ht : sizeOf tl ≤ n := by simp at h; omega
        simp only [extractPathsFuelFiles, extractPathsFiles, hk, if_false]
        exact extractPathsFuelFiles_adequate tl n ht
    | 0 => simp at h

theorem extractPathsFuelList_adequate :
    ∀ (l : JsonList) (n : Nat), sizeOf l ≤ n →
      extractPathsFuelList n l = some (extractPathsList l)
  | .nil, n, h => by
    match n with
    | n + 1 => rfl
    | 0 => simp at h
  | .cons j tl, n, h => by
    match n with
    | n + 1 =>
      have hj : sizeOf j ≤ n := by simp at h; omega
      have ht : sizeOf tl ≤ n := by simp at h; omega
      rw [show extractPathsFuelList (n + 1) (.cons j tl) =
        (match extractPathsFuel n j, extractPathsFuelList n tl with
         | some a, some b => some (a ++ b)
         | _, _ => none) from rfl]
      rw [extractPathsFuel_adequate j n hj, extractPathsFuelList_adequate tl n ht]
      rfl
    | 0 => simp at h
end

mutual
theorem extractPathsFFuel_adequate :
    ∀ (j : Json) (n : Nat), sizeOf j ≤ n →
      extractPathsFFuel n j = some (extractPathsF j)
  | .str s, n, h => by
    match n with
    | n + 1 => rfl
    | 0 => simp at h
  | .null, n, h => by
    match n with
    | n + 1 => rfl
    | 0 => simp at h
  | .bool b, n, h => by
    match n with
    | n + 1 => rfl
    | 0 => simp at h
  | .num m, n, h => by
    match n with
    | n + 1 => rfl
    | 0 => simp at h
  | .arr items, n, h => by
    match n with
    | n + 1 =>
      have hi : sizeOf items ≤ n := by simp at h; omega
      rw [show extractPathsFFuel (n + 1) (.arr items) = extractPathsFFuelList n items
        from rfl]
      rw [extractPathsFFuelList_adequate items n hi]
      rfl
    | 0 => simp at h
  | .obj fields, n, h => by
    match n with
    | n + 1 =>
      have hf : sizeOf fields ≤ n := by simp at h; omega
      by_cases hk : fields.hasKey "files" = true
      · rw [show extractPathsFFuel (n + 1) (.obj fields) = extractPathsFFuelFiles n fields
          by simp [extractPathsFFuel, hk]]
        rw [extractPathsFFuelFiles_adequate fields n hf]
        simp [extractPathsF, hk]
      · rw [Bool.not_eq_true] at hk
        simp [extractPathsFFuel, extractPathsF, hk]
    | 0 => simp at h

theorem extractPathsFFuelFiles_adequate :
    ∀ (fields : JsonFields) (n : Nat), sizeOf fields ≤ n →
      extractPathsFFuelFiles n fields = some (extractPathsFFiles fields)
  | .nil, n, h => by
    match n with
    | n + 1 => rfl
    | 0 => simp at h
  | .cons k v tl, n, h => by
    match n with
    | n + 1 =>
      by_cases hk : k = "files"
      · have hv : sizeOf v ≤ n := by simp at h; omega
        simp only [extractPathsFFuelFiles, extractPathsFFiles, hk, if_true]
        exact extractPathsFFuel_adequate v n hv
      · have ht : sizeOf tl ≤ n := by simp at h; omega
        simp only [extractPathsFFuelFiles, extractPathsFFiles, hk, if_false]
        exact extractPathsFFuelFiles_adequate tl n ht
    | 0 => simp at h

theorem extractPathsFFuelList_adequate :
    ∀ (l : JsonList) (n : Nat), sizeOf l ≤ n →
      extractPathsFFuelList n l = some (extractPathsFList l)
  | .nil, n, h => by
    match n with
    | n + 1 => rfl
    | 0 => simp at h
  | .cons j tl, n, h => by
    match n with
    | n + 1 =>
      have hj : sizeOf j ≤ n := by simp at h; omega
      have ht : sizeOf tl ≤ n := by simp at h; omega
      rw [show extractPathsFFuelList (n + 1) (.cons j tl) =
        (match extractPathsFFuel n j, extractPathsFFuelList n tl with
         | some a, some b => some (a ++ b)
         | _, _ => none) from rfl]
      rw [extractPathsFFuel_adequate j n hj, extractPathsFFuelList_adequate tl n ht]
      rfl
    | 0 => simp at h
end

/-! ## Claim theorems about the extractors -/

/-- **C3** (corrected).  The imperative extractor `_extract_paths` realises
exactly the claimed precedence (`specExtract`, written from the spec's
words).  The functional extractor `extract_paths` realises the precedence
amended at one point: a mapping without a `files` key whose `path` key
holds the *empty* string yields the empty list (its truthiness test
rejects `""`), which is `specExtractAmended`.  The claim's concrete
examples hold for both variants. -/
theorem C3_extractor_precedence :
    (∀ j : Json, extractPaths j = specExtract j) ∧
    (∀ j : Json, extractPathsF j = specExtractAmended j) ∧
    extractPaths (.str "a/b.md") = ["a/b.md"] ∧
    extractPaths (.arr (.cons (.obj (.cons "path" (.str "x") .nil))
      (.cons (.obj (.cons "path" (.str "y") .nil)) .nil))) = ["x", "y"] ∧
    extractPaths (.obj .nil) = [] ∧
    extractPathsF (.str "a/b.md") = ["a/b.md"] ∧
    extractPathsF (.arr (.cons (.obj (.cons "path" (.str "x") .nil))
      (.cons (.obj (.cons "path" (.str "y") .nil)) .nil))) = ["x", "y"] ∧
    extractPathsF (.obj .nil) = [] :=
  ⟨extractPaths_eq_spec, extractPathsF_eq_spec,
    by decide, by decide, by decide, by decide, by decide, by decide⟩

/-- **C3** counterexample to the claim as stated: `{"path": ""}` is a
mapping with no `files` key whose `path` key holds a string, so the
claimed precedence demands `[""]`, but the functional variant
`extract_paths` returns `[]`. -/
theorem C3_counterexample :
    extractPathsF (.obj (.cons "path" (.str "") .nil)) = [] ∧
    ([] : List String) ≠ [""] := by
  constructor
  · decide
  · decide

/-- **C4** (confirmed).  For every JSON value `X`, both extractor variants
send the mapping `{"files": X}` to exactly the extraction of `X`:
delegation through the `files` key is exact. -/
theorem C4_files_delegation_exact :
    ∀ X : Json,
      extractPaths (.obj (.cons "files" X .nil)) = extractPaths X ∧
      extractPathsF (.obj (.cons "files" X .nil)) = extractPathsF X := by
  intro X
  constructor
  · rw [show extractPaths (.obj (.cons "files" X .nil)) =
      extractPathsFiles (.cons "files" X .nil) by
        simp [extractPaths, JsonFields.hasKey]]
    simp [extractPathsFiles]
  · rw [show extractPathsF (.obj (.cons "files" X .nil)) =
      extractPathsFFiles (.cons "files" X .nil) by
        simp [extractPathsF, JsonFields.hasKey]]
    simp [extractPathsFFiles]

/-- **C10** (confirmed).  Both extractors are total and terminating on
every finite JSON value: running the step-indexed interpreter with fuel
`sizeOf j` (one unit per recursive call, which is well-founded on the
structure of the value) never exhausts the fuel and returns `some` of the
total function's list of strings — for arbitrarily nested mappings and
sequences. -/
theorem C10_extractor_total :
    ∀ (j : Json) (n : Nat), sizeOf j ≤ n →
      extractPathsFuel n j = some (extractPaths j) ∧
      extractPathsFFuel n j = some (extractPathsF j) :=
  fun j n h => ⟨extractPathsFuel_adequate j n h, extractPathsFFuel_adequate j n h⟩

/-- Witness for C10 at a concretely nested value. -/
theorem C10_witness :
    sizeOf (Json.arr (.cons (.obj (.cons "files"
        (.arr (.cons (.str "a") (.cons (.obj (.cons "path" (.str "b") .nil)) .nil)))
        .nil)) .nil)) ≤ 10000 ∧
    (extractPathsFuel 10000 (Json.arr (.cons (.obj (.cons "files"
        (.arr (.cons (.str "a") (.cons (.obj (.cons "path" (.str "b") .nil)) .nil)))
        .nil)) .nil)) =
      some (extractPaths (Json.arr (.cons (.obj (.cons "files"
        (.arr (.cons (.str "a") (.cons (.obj (.cons "path" (.str "b") .nil)) .nil)))
        .nil)) .nil))) ∧
     extractPathsFFuel 10000 (Json.arr (.cons (.obj (.cons "files"
        (.arr (.cons (.str "a") (.cons (.obj (.cons "path" (.str "b") .nil)) .nil)))
        .nil)) .nil)) =
      some (extractPathsF (Json.arr (.cons (.obj (.cons "files"
        (.arr (.cons (.str "a") (.cons (.obj (.cons "path" (.str "b") .nil)) .nil)))
        .nil)) .nil)))) :=
  ⟨by decide, C10_extractor_total _ 10000 (by decide)⟩

/-! ## Paths and filesystem state

`PPath` models a `pathlib` path as an absolute-flag plus a list of
components.  `parsePath` models `Path(string)` under Windows pathname
semantics (the manifest format fixes backslash separators "regardless of
host filesystem convention ... for downstream consumers", and Windows
`pathlib` splits on both `\` and `/` and collapses repeated separators;
drive letters do not occur in the repository's relative paths).

`FS` is the filesystem state threaded through the copiers: a map from
paths to file contents plus an explicit oracle `failing` listing the
destination paths at which `mkdir`/`shutil.copy2` raises an `OSError`
(the exception text is environment-dependent and is modelled by the fixed
string `"I/O error"`). -/

def isSepChar (c : Char) : Bool := c = '\\' || c = '/'

/-- Split a character list at every character satisfying `p`
(`"a/b" ↦ ["a", "b"]`, keeping empty pieces: `"a//b" ↦ ["a", "", "b"]`). -/
def splitP (p : Char → Bool) : List Char → List (List Char)
  | [] => [[]]
  | c :: rest =>
    if p c then [] :: splitP p rest
    else
      match splitP p rest with
      | g :: gs => (c :: g) :: gs
      | [] => [[c]]

/-- Join character lists with a separator character (inverse of `splitP`
on separator-free pieces). -/
def joinSep (sep : Char) : List (List Char) → List Char
  | [] => []
  | [g] => g
  | g :: gs => g ++ sep :: joinSep sep gs

structure PPath where
  absolute : Bool
  parts : List String
deriving DecidableEq

/-- `Path(s)` under Windows pathname semantics: absolute iff the string
starts with a separator; components are the non-empty separator-split
pieces (pathlib collapses repeated separators). -/
def parsePath (s : String) : PPath :=
  ⟨(match s.data with
    | c :: _ => isSepChar c
    | [] => false),
   ((splitP isSepChar s.data).filter (fun g => g ≠ [])).map (fun g => String.mk g)⟩

/-- `a / b` on `pathlib` paths: an absolute right operand replaces the left. -/
def PPath.join (a b : PPath) : PPath :=
  if b.absolute then b else ⟨a.absolute, a.parts ++ b.parts⟩

structure FS where
  files : List (PPath × String)
  failing : List PPath
deriving DecidableEq

def fsFind : List (PPath × String) → PPath → Option String
  | [], _ => none
  | (q, c) :: rest, p => if q = p then some c else fsFind rest p

/-- Contents of the file at `p`, `none` when `p.exists()` is false. -/
def FS.get (fs : FS) (p : PPath) : Option String := fsFind fs.files p

/-- Effect of `shutil.copy2(src, dest)` on the filesystem: `dest` now has
the given contents (the head of the list shadows older entries). -/
def FS.set (fs : FS) (p : PPath) (c : String) : FS :=
  ⟨(p, c) :: fs.files, fs.failing⟩

/-! ### The functional copier
(`my/curadoria/generate-github-base.py`: `Status`, `CopyResult`,
`CopyStats`, `resolve_destination`, `copy_single_file`,
`copy_files_batch`, `aggregate_results`) -/

inductive Status where
  | copied
  | skipped
  | failed
deriving DecidableEq

structure CopyResult where
  source : PPath
  destination : Option PPath
  status : Status
  error : Option String
deriving DecidableEq

structure CopyStats where
  copied : List PPath
  skipped : Nat
deriving DecidableEq

def CopyStats.total (s : CopyStats) : Nat := s.copied.length + s.skipped

/-- `success_rate`: `(len(self.copied) / self.total * 100) if self.total > 0
else 0.0`, modelled exactly over `ℚ` (Python computes it in floating point
and reports it with a trailing percent sign). -/
def CopyStats.success_rate (s : CopyStats) : ℚ :=
  if 0 < s.total then (s.copied.length : ℚ) / (s.total : ℚ) * 100 else 0

def resolve_destination (dest repo_root : PPath) : PPath :=
  if dest.absolute then dest else repo_root.join dest

def copy_single_file (fs : FS) (src dest : PPath) : CopyResult × FS :=
  match fs.get src with
  | none => (⟨src, none, .skipped, some "File not found"⟩, fs)
  | some content =>
    if dest ∈ fs.failing then (⟨src, none, .failed, some "I/O error"⟩, fs)
    else (⟨src, some dest, .copied, none⟩, fs.set dest content)

def copyBatchGo (fs : FS) (repo_root final_dest : PPath) :
    List String → List CopyResult × FS
  | [] => ([], fs)
  | p :: rest =>
    let rel := parsePath p
    let step := copy_single_file fs (repo_root.join rel) (final_dest.join rel)
    let next := copyBatchGo step.2 repo_root final_dest rest
    (step.1 :: next.1, next.2)

def copy_files_batch (fs : FS) (repo_root dest_root : PPath)
    (paths : List String) : List CopyResult × FS :=
  copyBatchGo fs repo_root (resolve_destination dest_root repo_root) paths

def aggregate_results (results : List CopyResult) : CopyStats :=
  ⟨results.filterMap (fun r => if r.status = .copied then r.destination else none),
   (results.filter (fun r => r.status = .skipped ∨ r.status = .failed)).length⟩

/-! ### The imperative copier
(`curadoria/generate-github-base.py`, lines 46–79: `_copy_paths`)

A missing source raises `FileNotFoundError` (`.error "Source not found"`);
an `OSError` during `copy2` is not caught either and propagates
(`.error "I/O error"`).  Either way the batch aborts. -/

def copyPathsGo (fs : FS) (repo_root final_dest : PPath) :
    List String → Except String (List PPath × FS)
  | [] => .ok ([], fs)
  | p :: rest =>
    let rel := parsePath p
    match fs.get (repo_root.join rel) with
    | none => .error "Source not found"
    | some content =>
      let dest := final_dest.join rel
      if dest ∈ fs.failing then .error "I/O error"
      else
        match copyPathsGo (fs.set dest content) repo_root final_dest rest with
        | .ok (ds, fs') => .ok (dest :: ds, fs')
        | .error e => .error e

def _copy_paths (fs : FS) (repo_root dest_root : PPath)
    (paths : List String) : Except String (List PPath × FS) :=
  let final_dest :=
    if dest_root.absolute then dest_root else repo_root.join dest_root
  copyPathsGo fs repo_root final_dest paths

theorem FS.get_set (fs : FS) (d p : PPath) (c : String) :
    (fs.set d c).get p = if d = p then some c else fs.get p := rfl

theorem copy_single_file_source (fs : FS) (src dest : PPath) :
    (copy_single_file fs src dest).1.source = src := by
  unfold copy_single_file
  cases fs.get src with
  | none => rfl
  | some c => by_cases h : dest ∈ fs.failing <;> simp [h]

theorem copy_single_file_skips (fs : FS) (src dest : PPath)
    (h : fs.get src = none) :
    copy_single_file fs src dest =
      (⟨src, none, .skipped, some "File not found"⟩, fs) := by
  unfold copy_single_file
  rw [h]

theorem copy_single_file_fails (fs : FS) (src dest : PPath) (content : String)
    (h : fs.get src = some content) (hf : dest ∈ fs.failing) :
    copy_single_file fs src dest =
      (⟨src, none, .failed, some "I/O error"⟩, fs) := by
  unfold copy_single_file
  rw [h]
  simp [hf]

theorem copy_single_file_copies (fs : FS) (src dest : PPath) (content : String)
    (h : fs.get src = some content) (hf : dest ∉ fs.failing) :
    copy_single_file fs src dest =
      (⟨src, some dest, .copied, none⟩, fs.set dest content) := by
  unfold copy_single_file
  rw [h]
  simp [hf]

theorem copy_single_file_copied_dest (fs : FS) (src dest : PPath) :
    (copy_single_file fs src dest).1.status = .copied →
      (copy_single_file fs src dest).1.destination.isSome := by
  unfold copy_single_file
  cases fs.get src with
  | none => simp
  | some c => by_cases h : dest ∈ fs.failing <;> simp [h]

theorem copyBatchGo_length :
    ∀ (paths : List String) (fs : FS) (r fd : PPath),
      (copyBatchGo fs r fd paths).1.length = paths.length
  | [], _, _, _ => rfl
  | p :: rest, fs, r, fd => by
    simp only [copyBatchGo, List.length_cons]
    rw [copyBatchGo_length rest]

theorem copyBatchGo_sources :
    ∀ (paths : List String) (fs : FS) (r fd : PPath),
      (copyBatchGo fs r fd paths).1.map (fun c => c.source) =
        paths.map (fun p => r.join (parsePath p))
  | [], _, _, _ => rfl
  | p :: rest, fs, r, fd => by
    simp only [copyBatchGo, List.map_cons]
    rw [copyBatchGo_sources rest, copy_single_file_source]

theorem copyBatchGo_copied_dest :
    ∀ (paths : List String) (fs : FS) (r fd : PPath),
      ∀ res ∈ (copyBatchGo fs r fd paths).1,
        res.status = .copied → res.destination.isSome
  | [], _, _, _ => by intro res h; simp [copyBatchGo] at h
  | p :: rest, fs, r, fd => by
    intro res h
    simp only [copyBatchGo, List.mem_cons] at h
    cases h with
    | inl h =>
      subst h
      exact copy_single_file_copied_dest _ _ _
    | inr h => exact copyBatchGo_copied_dest rest _ r fd res h

theorem aggregate_results_length (results : List CopyResult)
    (h : ∀ r ∈ results, r.status = .copied → r.destination.isSome) :
    (aggregate_results results).copied.length +
      (aggregate_results results).skipped = results.length := by
  induction results with
  | nil => rfl
  | cons r rest ih =>
    have hrest : ∀ x ∈ rest, x.status = .copied → x.destination.isSome :=
      fun x hx => h x (by simp [hx])
    have ihr := ih hrest
    cases hs : r.status with
    | copied =>
      obtain ⟨d, hd⟩ := Option.isSome_iff_exists.mp (h r (by simp) hs)
      simp [aggregate_results, hs, hd] at ihr ⊢
      omega
    | skipped =>
      simp [aggregate_results, hs] at ihr ⊢
      omega
    | failed =>
      simp [aggregate_results, hs] at ihr ⊢
      omega

/-- When every source exists and no copy raises, the two copiers perform
the same copies in the same order and end in the same filesystem state. -/
theorem copiers_agree_all_exist :
    ∀ (paths : List String) (fs : FS) (repo fd : PPath),
      fs.failing = [] →
      (∀ p ∈ paths, (FS.get fs (repo.join (parsePath p))).isSome) →
      ∃ fsN : FS,
        copyBatchGo fs repo fd paths =
          (paths.map (fun p => ⟨repo.join (parsePath p),
            some (fd.join (parsePath p)), .copied, none⟩), fsN) ∧
        copyPathsGo fs repo fd paths =
          .ok (paths.map (fun p => fd.join (parsePath p)), fsN)
  | [], fs, repo, fd, _, _ => ⟨fs, rfl, rfl⟩
  | p :: rest, fs, repo, fd, hfail, hex => by
    obtain ⟨content, hc⟩ :=
      Option.isSome_iff_exists.mp (hex p (by simp))
    have hnotfail : fd.join (parsePath p) ∉ fs.failing := by simp [hfail]
    have hstep := copy_single_file_copies fs (repo.join (parsePath p))
      (fd.join (parsePath p)) content hc hnotfail
    have hfail' : (fs.set (fd.join (parsePath p)) content).failing = [] := hfail
    have hex' : ∀ q ∈ rest,
        (FS.get (fs.set (fd.join (parsePath p)) content)
          (repo.join (parsePath q))).isSome := by
      intro q hq
      rw [FS.get_set]
      by_cases hqe : fd.join (parsePath p) = repo.join (parsePath q)
      · simp [hqe]
      · simp only [hqe, if_false]
        exact hex q (by simp [hq])
    obtain ⟨fsN, h1, h2⟩ :=
      copiers_agree_all_exist rest (fs.set (fd.join (parsePath p)) content)
        repo fd hfail' hex'
    refine ⟨fsN, ?_, ?_⟩
    · simp only [copyBatchGo, hstep, h1, List.map_cons]
    · simp only [copyPathsGo, hc, hfail, List.not_mem_nil, if_false, h2,
        List.map_cons]

/-! ## Claim theorems about the copiers -/

/-- **C1** (corrected).  In the functional batch copier each path is
handled per item: a missing source yields a recorded skip and leaves the
filesystem unchanged, an I/O exception during the copy yields a recorded
failure and leaves the filesystem unchanged, and otherwise the file is
copied; the batch always produces exactly one result per input path, in
order, with the resolved source recorded — it never aborts.  The
imperative copier `_copy_paths`, by contrast, raises `FileNotFoundError`
as soon as a source file is missing, aborting the batch (its `main`
catches the exception and exits with code 1). -/
theorem C1_per_item_error_handling :
    (∀ (fs : FS) (src dest : PPath), fs.get src = none →
      copy_single_file fs src dest =
        (⟨src, none, .skipped, some "File not found"⟩, fs)) ∧
    (∀ (fs : FS) (src dest : PPath) (content : String),
      fs.get src = some content → dest ∈ fs.failing →
      copy_single_file fs src dest =
        (⟨src, none, .failed, some "I/O error"⟩, fs)) ∧
    (∀ (fs : FS) (src dest : PPath) (content : String),
      fs.get src = some content → dest ∉ fs.failing →
      copy_single_file fs src dest =
        (⟨src, some dest, .copied, none⟩, fs.set dest content)) ∧
    (∀ (fs : FS) (repo dest : PPath) (paths : List String),
      (copy_files_batch fs repo dest paths).1.length = paths.length ∧
      (copy_files_batch fs repo dest paths).1.map (fun r => r.source) =
        paths.map (fun p => repo.join (parsePath p))) ∧
    (∀ (fs : FS) (repo dest : PPath) (p : String) (rest : List String),
      fs.get (repo.join (parsePath p)) = none →
      _copy_paths fs repo dest (p :: rest) = .error "Source not found") := by
  refine ⟨copy_single_file_skips, copy_single_file_fails,
    copy_single_file_copies, ?_, ?_⟩
  · intro fs repo dest paths
    exact ⟨copyBatchGo_length paths fs repo _, copyBatchGo_sources paths fs repo _⟩
  · intro fs repo dest p rest h
    simp only [_copy_paths, copyPathsGo, h]

/-- **C1** counterexample to the claim as stated: with one existing source
`r/b` and path list `["a", "b"]`, the imperative `_copy_paths` aborts at
the missing `r/a` with `FileNotFoundError` and never processes `"b"`,
while the claim demands a recorded skip and continued processing (which
is what the functional `copy_files_batch` does). -/
theorem C1_counterexample :
    _copy_paths ⟨[(⟨true, ["r", "b"]⟩, "x")], []⟩ ⟨true, ["r"]⟩
        ⟨false, ["d"]⟩ ["a", "b"] = .error "Source not found" ∧
    (copy_files_batch ⟨[(⟨true, ["r", "b"]⟩, "x")], []⟩ ⟨true, ["r"]⟩
        ⟨false, ["d"]⟩ ["a", "b"]).1.map (fun r => r.status) =
      [.skipped, .copied] := by
  constructor
  · rfl
  · rfl

/-- Witness for C1 at concrete inputs. -/
theorem C1_witness :
    copy_single_file ⟨[], []⟩ ⟨true, ["r", "a"]⟩ ⟨true, ["d", "a"]⟩ =
      (⟨⟨true, ["r", "a"]⟩, none, .skipped, some "File not found"⟩,
        ⟨[], []⟩) ∧
    copy_single_file ⟨[(⟨true, ["r", "a"]⟩, "c")], [⟨true, ["d", "a"]⟩]⟩
        ⟨true, ["r", "a"]⟩ ⟨true, ["d", "a"]⟩ =
      (⟨⟨true, ["r", "a"]⟩, none, .failed, some "I/O error"⟩,
        ⟨[(⟨true, ["r", "a"]⟩, "c")], [⟨true, ["d", "a"]⟩]⟩) ∧
    copy_single_file ⟨[(⟨true, ["r", "a"]⟩, "c")], []⟩
        ⟨true, ["r", "a"]⟩ ⟨true, ["d", "a"]⟩ =
      (⟨⟨true, ["r", "a"]⟩, some ⟨true, ["d", "a"]⟩, .copied, none⟩,
        FS.set ⟨[(⟨true, ["r", "a"]⟩, "c")], []⟩ ⟨true, ["d", "a"]⟩ "c") ∧
    _copy_paths ⟨[], []⟩ ⟨true, ["r"]⟩ ⟨false, ["d"]⟩ ["a"] =
      .error "Source not found" :=
  ⟨C1_per_item_error_handling.1 _ _ _ (by decide),
   C1_per_item_error_handling.2.1 _ _ _ "c" (by decide) (by decide),
   C1_per_item_error_handling.2.2.1 _ _ _ "c" (by decide) (by decide),
   C1_per_item_error_handling.2.2.2.2 _ _ _ _ _ (by decide)⟩

/-- **C2** (corrected).  The two variants agree only outside two
behavioural differences.  Extractors: on every JSON value in which no
mapping reached by the extraction lacks a `files` key while mapping
`path` to the empty string, `_extract_paths` and `extract_paths` return
the same list.  Copiers: when every source exists and no copy raises,
`_copy_paths` and `copy_files_batch` perform the same copies in the same
order and produce the same final filesystem state (the copy outcomes
agree per file); on a missing source they diverge — see
`C2_counterexample` and `C1_counterexample`. -/
theorem C2_variant_equivalence :
    (∀ j : Json, noEmptyPathStr j = true → extractPaths j = extractPathsF j) ∧
    (∀ (fs : FS) (repo dest : PPath) (paths : List String),
      fs.failing = [] →
      (∀ p ∈ paths, (FS.get fs (repo.join (parsePath p))).isSome) →
      ∃ fsN : FS,
        copy_files_batch fs repo dest paths =
          (paths.map (fun p => ⟨repo.join (parsePath p),
            some ((resolve_destination dest repo).join (parsePath p)),
            .copied, none⟩), fsN) ∧
        _copy_paths fs repo dest paths =
          .ok (paths.map
            (fun p => (resolve_destination dest repo).join (parsePath p)),
            fsN)) := by
  refine ⟨extract_variants_agree, ?_⟩
  intro fs repo dest paths hfail hex
  exact copiers_agree_all_exist paths fs repo (resolve_destination dest repo)
    hfail hex

/-- **C2** counterexample to the claim as stated: the two path extractors
are not equivalent — on the parsed JSON value `{"path": ""}` the
imperative `_extract_paths` returns `[""]` while the functional
`extract_paths` returns `[]`. -/
theorem C2_counterexample :
    extractPaths (.obj (.cons "path" (.str "") .nil)) = [""] ∧
    extractPathsF (.obj (.cons "path" (.str "") .nil)) = [] ∧
    ([""] : List String) ≠ [] := by
  refine ⟨by decide, by decide, by decide⟩

/-- Witness for C2: a JSON value satisfying the no-empty-`path` condition,
and a concrete filesystem in which all sources exist. -/
theorem C2_witness :
    extractPaths (.arr (.cons (.obj (.cons "path" (.str "x") .nil)) .nil)) =
      extractPathsF (.arr (.cons (.obj (.cons "path" (.str "x") .nil)) .nil)) ∧
    (∃ fsN : FS,
      copy_files_batch ⟨[(⟨true, ["r", "b"]⟩, "x")], []⟩ ⟨true, ["r"]⟩
          ⟨false, ["d"]⟩ ["b"] =
        (["b"].map (fun p => ⟨PPath.join ⟨true, ["r"]⟩ (parsePath p),
          some ((resolve_destination ⟨false, ["d"]⟩ ⟨true, ["r"]⟩).join
            (parsePath p)), .copied, none⟩), fsN) ∧
      _copy_paths ⟨[(⟨true, ["r", "b"]⟩, "x")], []⟩ ⟨true, ["r"]⟩
          ⟨false, ["d"]⟩ ["b"] =
        .ok (["b"].map (fun p =>
          (resolve_destination ⟨false, ["d"]⟩ ⟨true, ["r"]⟩).join
            (parsePath p)), fsN)) :=
  ⟨C2_variant_equivalence.1 _ (by decide),
   C2_variant_equivalence.2 _ _ _ _ (by decide) (by decide)⟩

/-- **C7** (confirmed).  For every batch copy, the aggregated statistics
satisfy: the copied count `c` plus the skipped/failed count `s` equals the
number of input paths, and whenever `c + s > 0` the `success_rate` value
equals `100 · c / (c + s)` — i.e. printed with its trailing percent sign,
the reported success rate is exactly `c / (c + s)`. -/
theorem C7_success_rate :
    ∀ (fs : FS) (repo dest : PPath) (paths : List String),
      (aggregate_results (copy_files_batch fs repo dest paths).1).copied.length +
        (aggregate_results (copy_files_batch fs repo dest paths).1).skipped =
          paths.length ∧
      (0 < (aggregate_results (copy_files_batch fs repo dest paths).1).total →
        (aggregate_results (copy_files_batch fs repo dest paths).1).success_rate =
          100 * (((aggregate_results
              (copy_files_batch fs repo dest paths).1).copied.length : ℚ) /
            (((aggregate_results
              (copy_files_batch fs repo dest paths).1).copied.length : ℚ) +
              ((aggregate_results
              (copy_files_batch fs repo dest paths).1).skipped : ℚ)))) := by
  intro fs repo dest paths
  constructor
  · unfold copy_files_batch
    rw [aggregate_results_length _
      (copyBatchGo_copied_dest paths fs repo (resolve_destination dest repo))]
    exact copyBatchGo_length paths fs repo _
  · intro hpos
    unfold CopyStats.success_rate
    rw [if_pos hpos]
    unfold CopyStats.total
    push_cast
    ring

/-- Witness for C7: one existing and one missing source give
`c = 1`, `s = 1`, success rate `50`. -/
theorem C7_witness :
    (aggregate_results (copy_files_batch ⟨[(⟨true, ["r", "b"]⟩, "x")], []⟩
        ⟨true, ["r"]⟩ ⟨false, ["d"]⟩ ["a", "b"]).1).copied.length +
      (aggregate_results (copy_files_batch ⟨[(⟨true, ["r", "b"]⟩, "x")], []⟩
        ⟨true, ["r"]⟩ ⟨false, ["d"]⟩ ["a", "b"]).1).skipped = 2 ∧
    (aggregate_results (copy_files_batch ⟨[(⟨true, ["r", "b"]⟩, "x")], []⟩
        ⟨true, ["r"]⟩ ⟨false, ["d"]⟩ ["a", "b"]).1).success_rate =
      100 * ((1 : ℚ) / (1 + 1)) :=
  ⟨(C7_success_rate _ _ _ _).1,
   by
    have h := (C7_success_rate ⟨[(⟨true, ["r", "b"]⟩, "x")], []⟩
      ⟨true, ["r"]⟩ ⟨false, ["d"]⟩ ["a", "b"]).2 (by decide)
    rw [h]
    norm_num [show (aggregate_results (copy_files_batch
      ⟨[(⟨true, ["r", "b"]⟩, "x")], []⟩ ⟨true, ["r"]⟩ ⟨false, ["d"]⟩
      ["a", "b"]).1).copied.length = 1 by decide,
      show (aggregate_results (copy_files_batch
      ⟨[(⟨true, ["r", "b"]⟩, "x")], []⟩ ⟨true, ["r"]⟩ ⟨false, ["d"]⟩
      ["a", "b"]).1).skipped = 1 by decide]⟩

/-! ## Frontmatter description extraction

Both scripts compile the same two regexes:

* `_FRONTMATTER_RE  = ^---\s*\n(.*?)\n---` (DOTALL), used with `.match`;
* `_DESCRIPTION_RE  = ^description:\s*['"]?(.*?)['"]?\s*$` (MULTILINE),
  used with `.search` on the frontmatter group.

They are translated below into explicit matchers over `List Char` with
the regex engine's semantics: greedy `\s*` tried longest-first with
backtracking, greedy optional quotes, lazy group tried shortest-first,
`.` not matching a newline (no DOTALL on the second regex), `$` matching
at a newline or at the end, and `^`-anchored search trying every line
start left to right.  `\s` is the ASCII whitespace class (the repository's
files are ASCII where it matters). -/

def wsChar (c : Char) : Bool :=
  c = ' ' || c = '\t' || c = '\n' || c = '\x0b' || c = '\x0c' || c = '\r'

def quoteChar (c : Char) : Bool := c = '\'' || c = '"'

def wsPrefixLen (l : List Char) : Nat := (l.takeWhile wsChar).length

/-- `\s*$` starting inside a line: skip non-newline whitespace, accept at
the end of the string or right before a `\n`. -/
def wsThenLineEnd : List Char → Bool
  | [] => true
  | c :: rest =>
    if c = '\n' then true
    else if wsChar c then wsThenLineEnd rest
    else false

/-- `['"]?\s*$`: the optional quote is greedy, with backtracking. -/
def closeQuoteEnd : List Char → Bool
  | [] => true
  | c :: rest =>
    if quoteChar c && wsThenLineEnd rest then true
    else wsThenLineEnd (c :: rest)

/-- `(.*?)['"]?\s*$`: the group is lazy (shortest first) and `.` does not
match a newline. -/
def lazyValue : List Char → Option (List Char)
  | [] => some []
  | c :: rest =>
    if closeQuoteEnd (c :: rest) then some []
    else if c = '\n' then none
    else (lazyValue rest).map (fun g => c :: g)

/-- `['"]?(.*?)['"]?\s*$`: the opening quote is greedy, with backtracking. -/
def quotedValue : List Char → Option (List Char)
  | [] => lazyValue []
  | c :: rest =>
    if quoteChar c then
      match lazyValue rest with
      | some g => some g
      | none => lazyValue (c :: rest)
    else lazyValue (c :: rest)

/-- `\s*['"]?(.*?)['"]?\s*$` where the leading `\s*` consumes `k` of the
whitespace run, longest first (greedy, with backtracking); note that this
`\s*` may consume newlines. -/
def wsQuotedValue : Nat → List Char → Option (List Char)
  | 0, l => quotedValue l
  | k + 1, l =>
    match quotedValue (l.drop (k + 1)) with
    | some g => some g
    | none => wsQuotedValue k l

def descKey : List Char := "description:".data

/-- One attempt of the description pattern at a line start. -/
def matchDescAt (l : List Char) : Option (List Char) :=
  if descKey.isPrefixOf l then
    let rest := l.drop descKey.length
    wsQuotedValue (wsPrefixLen rest) rest
  else none

/-- The suffixes of the string at each line start after position 0,
left to right. -/
def lineStarts : List Char → List (List Char)
  | [] => []
  | c :: rest => if c = '\n' then rest :: lineStarts rest else lineStarts rest

def searchDescAux : List (List Char) → Option (List Char)
  | [] => none
  | f :: fs =>
    match matchDescAt f with
    | some g => some g
    | none => searchDescAux fs

/-- `_DESCRIPTION_RE.search(fm)`: with MULTILINE `^`, only line starts can
match; they are tried in order. -/
def searchDesc (fm : List Char) : Option (List Char) :=
  searchDescAux (fm :: lineStarts fm)

def dashes3 : List Char := '-' :: '-' :: '-' :: []

def nlDashes : List Char := '\n' :: dashes3

/-- `(.*?)` up to the first occurrence of `pat` (lazy, DOTALL). -/
def beforeFirst (pat : List Char) : List Char → Option (List Char)
  | [] => if pat.isPrefixOf ([] : List Char) then some [] else none
  | c :: rest =>
    if pat.isPrefixOf (c :: rest) then some []
    else (beforeFirst pat rest).map (fun g => c :: g)

/-- `\s*\n(.*?)\n---` after the opening dashes, the `\s*` consuming `k`
whitespace characters, longest first (greedy, with backtracking). -/
def fmBody : Nat → List Char → Option (List Char)
  | 0, rest =>
    match rest with
    | c :: tail => if c = '\n' then beforeFirst nlDashes tail else none
    | [] => none
  | k + 1, rest =>
    match rest.drop (k + 1) with
    | c :: tail =>
      if c = '\n' then
        match beforeFirst nlDashes tail with
        | some g => some g
        | none => fmBody k rest
      else fmBody k rest
    | [] => fmBody k rest

/-- `_FRONTMATTER_RE.match(content)`, returning the frontmatter group. -/
def extract_frontmatter_chars (content : List Char) : Option (List Char) :=
  if dashes3.isPrefixOf content then
    fmBody (wsPrefixLen (content.drop 3)) (content.drop 3)
  else none

/-- Python `str.strip()` (ASCII whitespace). -/
def stripWsChars (l : List Char) : List Char :=
  ((l.dropWhile wsChar).reverse.dropWhile wsChar).reverse

/-! ### `extract_description` — imperative variant
(`curadoria/generate-stack.py`, lines 28–44).  The argument is the result
of `read_text`: `none` models an `OSError` during the read. -/

def extract_description (contents : Option String) : String :=
  match contents with
  | none => ""
  | some content =>
    match extract_frontmatter_chars content.data with
    | none => ""
    | some fm =>
      match searchDesc fm with
      | none => ""
      | some g => String.mk (stripWsChars g)

/-! ### the functional pipeline
(`my/curadoria/generate-stack.py`: `read_file_safe` yields `none` on
`OSError`; `extract_description` there additionally treats an empty file
and an empty frontmatter group as falsy). -/

def extract_frontmatter (content : String) : Option String :=
  (extract_frontmatter_chars content.data).map String.mk

def extract_description_from_frontmatter (frontmatter : String) : String :=
  match searchDesc frontmatter.data with
  | none => ""
  | some g => String.mk (stripWsChars g)

def extract_descriptionF (contents : Option String) : String :=
  match contents with
  | none => ""
  | some content =>
    if content = "" then ""
    else
      match extract_frontmatter content with
      | none => ""
      | some fm =>
        if fm = "" then ""
        else extract_description_from_frontmatter fm

theorem desc_check_plain : extract_description (some "---\ndescription: hello\n---\nbody") =
    "hello" := by decide

theorem desc_check_emptyValue : extract_description (some "---\ndescription:\nfoo\n---") = "foo" := by
  decide

theorem desc_check_quoted : extract_description (some "---\ndescription: \"hello\"\n---") =
    "hello" := by decide

theorem desc_check_mixedQuotes : extract_description (some "---\ndescription: 'a\"\n---") = "a" := by
  decide

theorem desc_check_noKey : extract_description (some "---\nfoo: 1\n---") = "" := by decide

theorem desc_check_noFm : extract_description (some "no frontmatter") = "" := by decide

theorem desc_check_innerSpace : extract_description (some "---\ndescription: \" a\"\n---") = "a" := by
  decide

theorem desc_check_firstKey : extract_description
    (some "---\npre: x\ndescription: v1\ndescription: v2\n---") = "v1" := by
  decide

theorem desc_check_doubleSingle : extract_description (some "---\ndescription: ''a''\n---") = "'a'" := by
  decide

theorem descF_check_plain : extract_descriptionF (some "---\ndescription: hello\n---") =
    "hello" := by decide

theorem desc_check_none : extract_description none = "" := by decide

/-! ### Characterising the description matcher

Claim C6 speaks about "the key's value with optional surrounding quotes
and whitespace stripped"; `specValue` is that reading, written from the
claim's words.  The lemmas below relate the backtracking matcher to it. -/

def dropTrailWs (l : List Char) : List Char := (l.reverse.dropWhile wsChar).reverse

def dropLeadQuote : List Char → List Char
  | [] => []
  | c :: rest => if quoteChar c then rest else c :: rest

def dropTrailQuote (l : List Char) : List Char := (dropLeadQuote l.reverse).reverse

/-- The claim's reading of the extracted description: the text after
`description:` with surrounding whitespace stripped and one optional
leading and one optional trailing quote removed. -/
def specValue (v : List Char) : List Char :=
  stripWsChars (dropTrailQuote (dropLeadQuote (stripWsChars v)))

theorem stripWsChars_eq (l : List Char) :
    stripWsChars l = dropTrailWs (l.dropWhile wsChar) := rfl

theorem newline_wsChar : wsChar '\n' = true := by decide

theorem lazyValue_isSome : ∀ l : List Char, (lazyValue l).isSome
  | [] => rfl
  | c :: rest => by
    unfold lazyValue
    by_cases h : closeQuoteEnd (c :: rest) = true
    · simp [h]
    · have hc : ¬ c = '\n' := by
        intro hc
        subst hc
        apply h
        unfold closeQuoteEnd wsThenLineEnd
        simp
      simp only [h, if_false, hc]
      have := lazyValue_isSome rest
      cases hr : lazyValue rest with
      | none => rw [hr] at this; simp at this
      | some g => simp

theorem quotedValue_isSome (l : List Char) : (quotedValue l).isSome := by
  unfold quotedValue
  cases l with
  | nil => exact lazyValue_isSome []
  | cons c rest =>
    by_cases h : quoteChar c = true
    · simp only [h, if_true]
      cases hr : lazyValue rest with
      | none => have := lazyValue_isSome rest; rw [hr] at this; simp at this
      | some g => simp
    · simp only [h, if_false]
      exact lazyValue_isSome (c :: rest)

theorem wsQuotedValue_eq :
    ∀ (k : Nat) (l : List Char), wsQuotedValue k l = quotedValue (l.drop k)
  | 0, l => by simp [wsQuotedValue]
  | k + 1, l => by
    unfold wsQuotedValue
    have := quotedValue_isSome (l.drop (k + 1))
    cases hq : quotedValue (l.drop (k + 1)) with
    | none => rw [hq] at this; simp at this
    | some g => simp

/-- A tail that is empty or starts at a line boundary. -/
def TailOk (tail : List Char) : Prop := tail = [] ∨ ∃ t, tail = '\n' :: t

theorem wsThenLineEnd_append (x tail : List Char)
    (hx : '\n' ∉ x) (ht : TailOk tail) :
    wsThenLineEnd (x ++ tail) = x.all wsChar := by
  induction x with
  | nil =>
    cases ht with
    | inl h => subst h; rfl
    | inr h => obtain ⟨t, rfl⟩ := h; rfl
  | cons c x' ih =>
    have hc : ¬ c = '\n' := fun h => hx (h ▸ List.mem_cons_self c x')
    have hx' : '\n' ∉ x' := fun h => hx (List.mem_cons_of_mem c h)
    unfold wsThenLineEnd
    simp only [List.cons_append, hc, if_false]
    by_cases hw : wsChar c = true
    · simp [hw, ih hx']
    · simp [hw]

theorem closeQuoteEnd_append (s tail : List Char)
    (hs : '\n' ∉ s) (ht : TailOk tail) :
    closeQuoteEnd (s ++ tail) =
      ((match s with
        | c :: s' => quoteChar c && s'.all wsChar
        | [] => false) || s.all wsChar) := by
  cases s with
  | nil =>
    simp only [List.nil_append, List.all_nil, Bool.or_true]
    cases ht with
    | inl h => subst h; rfl
    | inr h =>
      obtain ⟨t, rfl⟩ := h
      unfold closeQuoteEnd wsThenLineEnd
      simp
  | cons c s' =>
    have hc : ¬ c = '\n' := fun h => hs (h ▸ List.mem_cons_self c s')
    have hs' : '\n' ∉ s' := fun h => hs (List.mem_cons_of_mem c h)
    have e1 : closeQuoteEnd ((c :: s') ++ tail) =
        if quoteChar c && wsThenLineEnd (s' ++ tail) then true
        else wsThenLineEnd (c :: (s' ++ tail)) := rfl
    have e2 : wsThenLineEnd (c :: (s' ++ tail)) =
        if c = '\n' then true
        else if wsChar c then wsThenLineEnd (s' ++ tail) else false := rfl
    rw [e1, e2, wsThenLineEnd_append s' tail hs' ht]
    simp only [hc, if_false]
    have hbool : ∀ (A B C : Bool),
        (if (A && C) = true then true else if B = true then C else false) =
          (A && C || B && C) := by decide
    rw [show (c :: s').all wsChar = (wsChar c && s'.all wsChar) from rfl]
    exact hbool (quoteChar c) (wsChar c) (s'.all wsChar)

theorem dropTrailWs_eq_nil_iff (l : List Char) :
    dropTrailWs l = [] ↔ l.all wsChar = true := by
  unfold dropTrailWs
  rw [List.reverse_eq_nil_iff, List.dropWhile_eq_nil_iff, List.all_eq_true]
  constructor
  · intro h x hx
    exact h x (List.mem_reverse.mpr hx)
  · intro h x hx
    exact h x (List.mem_reverse.mp hx)

theorem dropTrailWs_cons (c : Char) (x : List Char) :
    dropTrailWs (c :: x) =
      if dropTrailWs x = [] then (if wsChar c then [] else [c])
      else c :: dropTrailWs x := by
  unfold dropTrailWs
  rw [List.reverse_cons, List.dropWhile_append]
  by_cases h : x.reverse.dropWhile wsChar = []
  · simp only [h, List.isEmpty_nil, if_true, List.reverse_eq_nil_iff, h,
      List.dropWhile_cons, List.dropWhile_nil]
    by_cases hw : wsChar c = true
    · simp [hw]
    · simp [hw]
  · have : (x.reverse.dropWhile wsChar).isEmpty = false := by
      cases he : x.reverse.dropWhile wsChar with
      | nil => exact absurd he h
      | cons a b => rfl
    simp only [this, Bool.false_eq_true, if_false, List.reverse_append,
      List.reverse_cons, List.reverse_nil, List.nil_append]
    rw [if_neg (by simpa [List.reverse_eq_nil_iff] using h)]
    rfl

theorem dropTrailWs_cons_of_ne (c : Char) (x : List Char)
    (h : dropTrailWs x ≠ []) : dropTrailWs (c :: x) = c :: dropTrailWs x := by
  rw [dropTrailWs_cons, if_neg h]

theorem dropTrailWs_head_eq (c : Char) (x : List Char) (hc : wsChar c = false) :
    dropTrailWs (c :: x) = c :: dropTrailWs x := by
  rw [dropTrailWs_cons]
  by_cases h : dropTrailWs x = []
  · simp [h, hc]
  · simp [h]

theorem dropTrailQuote_nil : dropTrailQuote [] = [] := rfl

theorem dropTrailQuote_singleton (c : Char) :
    dropTrailQuote [c] = if quoteChar c then [] else [c] := by
  unfold dropTrailQuote dropLeadQuote
  simp only [List.reverse_cons, List.reverse_nil, List.nil_append]
  by_cases h : quoteChar c = true
  · simp [h]
  · simp [h]

theorem dropTrailQuote_cons (c : Char) (x : List Char) (h : x ≠ []) :
    dropTrailQuote (c :: x) = c :: dropTrailQuote x := by
  unfold dropTrailQuote
  rw [List.reverse_cons]
  cases hrx : x.reverse with
  | nil => exact absurd (by simpa [List.reverse_eq_nil_iff] using hrx) h
  | cons d y =>
    unfold dropLeadQuote
    simp only [List.cons_append]
    by_cases hq : quoteChar d = true
    · simp [hq, List.reverse_append]
    · simp [hq, List.reverse_append]

/-- Stripping leading whitespace commutes with dropping trailing
whitespace. -/
theorem dropTrailWs_dropWhile (l : List Char) :
    dropTrailWs (l.dropWhile wsChar) = (dropTrailWs l).dropWhile wsChar := by
  induction l with
  | nil => rfl
  | cons c x ih =>
    by_cases hw : wsChar c = true
    · rw [List.dropWhile_cons_of_pos hw, ih, dropTrailWs_cons]
      by_cases h : dropTrailWs x = []
      · simp [h, hw]
      · simp only [h, if_false]
        rw [List.dropWhile_cons_of_pos hw]
    · rw [List.dropWhile_cons_of_neg (by simp [hw]),
        dropTrailWs_head_eq c x (Bool.not_eq_true _ ▸ hw)]
      rw [List.dropWhile_cons_of_neg (by simp [hw])]

theorem stripWsChars_as_trail_lead (l : List Char) :
    stripWsChars l = (dropTrailWs l).dropWhile wsChar := by
  rw [stripWsChars_eq, dropTrailWs_dropWhile]

theorem quote_not_ws (c : Char) (h : quoteChar c = true) : wsChar c = false := by
  unfold quoteChar at h
  rw [Bool.or_eq_true] at h
  cases h with
  | inl h =>
    rw [decide_eq_true_eq] at h
    subst h
    decide
  | inr h =>
    rw [decide_eq_true_eq] at h
    subst h
    decide

theorem lazyValue_tailOk (tail : List Char) (ht : TailOk tail) :
    lazyValue tail = some [] := by
  cases ht with
  | inl h => subst h; rfl
  | inr h => obtain ⟨t, rfl⟩ := h; rfl

theorem lazyValue_allws :
    ∀ (u tail : List Char), u.all wsChar = true → '\n' ∉ u → TailOk tail →
      lazyValue (u ++ tail) = some []
  | [], tail, _, _, ht => lazyValue_tailOk tail ht
  | d :: u'', tail, hall, hnl, ht => by
    have hd : wsChar d = true ∧ u''.all wsChar = true := by
      simpa [List.all_cons, Bool.and_eq_true] using hall
    have hnl'' : '\n' ∉ u'' := fun h => hnl (List.mem_cons_of_mem d h)
    have hclose : closeQuoteEnd ((d :: u'') ++ tail) = true := by
      rw [closeQuoteEnd_append (d :: u'') tail hnl ht]
      simp [hall]
    rw [show (d :: u'') ++ tail = d :: (u'' ++ tail) from rfl] at hclose ⊢
    rw [show lazyValue (d :: (u'' ++ tail)) =
      if closeQuoteEnd (d :: (u'' ++ tail)) then some []
      else if d = '\n' then none
      else (lazyValue (u'' ++ tail)).map (fun g => d :: g) from rfl]
    rw [hclose]
    rfl

/-- Core lemma: within a line (`'\n' ∉ u`, tail at a line boundary), the
lazy group matched by `(.*?)['"]?\s*$` equals `u` with its trailing
whitespace run and one quote before it removed — up to trailing
whitespace, which the caller strips. -/
theorem lazyValue_dropTrail :
    ∀ (u tail g : List Char), '\n' ∉ u → TailOk tail →
      lazyValue (u ++ tail) = some g →
      dropTrailWs g = dropTrailWs (dropTrailQuote (dropTrailWs u))
  | [], tail, g, _, ht, hg => by
    rw [List.nil_append, lazyValue_tailOk tail ht] at hg
    cases hg
    rfl
  | c :: u', tail, g, hnl, ht, hg => by
    have hc : ¬ c = '\n' := fun h => hnl (h ▸ List.mem_cons_self c u')
    have hnl' : '\n' ∉ u' := fun h => hnl (List.mem_cons_of_mem c h)
    have hclose : closeQuoteEnd (c :: (u' ++ tail)) =
        ((quoteChar c && u'.all wsChar) || (wsChar c && u'.all wsChar)) := by
      have h := closeQuoteEnd_append (c :: u') tail hnl ht
      rw [show (c :: u') ++ tail = c :: (u' ++ tail) from rfl] at h
      rw [h]
      rfl
    rw [show (c :: u') ++ tail = c :: (u' ++ tail) from rfl] at hg
    rw [show lazyValue (c :: (u' ++ tail)) =
      if closeQuoteEnd (c :: (u' ++ tail)) then some []
      else if c = '\n' then none
      else (lazyValue (u' ++ tail)).map (fun g => c :: g) from rfl] at hg
    rw [hclose] at hg
    by_cases hD : ((quoteChar c && u'.all wsChar) || (wsChar c && u'.all wsChar))
        = true
    · rw [if_pos hD] at hg
      cases hg
      rw [Bool.or_eq_true, Bool.and_eq_true, Bool.and_eq_true] at hD
      cases hD with
      | inl h =>
        have hq := h.1
        have hwall := h.2
        have hwc : wsChar c = false := quote_not_ws c hq
        have h1 : dropTrailWs u' = [] := (dropTrailWs_eq_nil_iff u').mpr hwall
        rw [dropTrailWs_cons, if_pos h1, if_neg (by simp [hwc]),
          dropTrailQuote_singleton, if_pos hq]
      | inr h =>
        have h1 : dropTrailWs (c :: u') = [] :=
          (dropTrailWs_eq_nil_iff (c :: u')).mpr (by simp [h.1, h.2])
        rw [h1, dropTrailQuote_nil]
    · rw [if_neg hD, if_neg hc] at hg
      rw [Bool.or_eq_true, not_or, Bool.and_eq_true, Bool.and_eq_true] at hD
      obtain ⟨g', hg', rfl⟩ : ∃ g', lazyValue (u' ++ tail) = some g' ∧ g = c :: g' := by
        cases hl : lazyValue (u' ++ tail) with
        | none => rw [hl] at hg; cases hg
        | some x =>
          rw [hl] at hg
          cases hg
          exact ⟨x, rfl, rfl⟩
      by_cases hall : u'.all wsChar = true
      · have hwc : wsChar c = false := by
          by_cases h : wsChar c = true
          · exact absurd ⟨h, hall⟩ hD.2
          · exact Bool.not_eq_true _ ▸ h
        have hqc : quoteChar c = false := by
          by_cases h : quoteChar c = true
          · exact absurd ⟨h, hall⟩ hD.1
          · exact Bool.not_eq_true _ ▸ h
        have : g' = [] := by
          have := lazyValue_allws u' tail hall hnl' ht
          rw [this] at hg'
          cases hg'
          rfl
        subst this
        have h1 : dropTrailWs u' = [] := (dropTrailWs_eq_nil_iff u').mpr hall
        rw [dropTrailWs_cons, if_pos (show dropTrailWs ([] : List Char) = []
          from rfl), if_neg (by simp [hwc])]
        rw [dropTrailWs_cons, if_pos h1, if_neg (by simp [hwc]),
          dropTrailQuote_singleton, if_neg (by simp [hqc])]
        rw [dropTrailWs_cons, if_pos (show dropTrailWs ([] : List Char) = []
          from rfl), if_neg (by simp [hwc])]
      · have ih := lazyValue_dropTrail u' tail g' hnl' ht hg'
        have hne : dropTrailWs u' ≠ [] := by
          intro h
          exact hall ((dropTrailWs_eq_nil_iff u').mp h)
        rw [dropTrailWs_cons_of_ne c u' hne,
          dropTrailQuote_cons c (dropTrailWs u') hne,
          dropTrailWs_cons, dropTrailWs_cons, ih]

theorem drop_length_takeWhile (p : Char → Bool) :
    ∀ l : List Char, l.drop (l.takeWhile p).length = l.dropWhile p
  | [] => rfl
  | c :: x => by
    by_cases hc : p c = true
    · rw [List.takeWhile_cons_of_pos hc, List.dropWhile_cons_of_pos hc]
      simp only [List.length_cons, List.drop_succ_cons]
      exact drop_length_takeWhile p x
    · rw [List.takeWhile_cons_of_neg (by simp [hc]),
        List.dropWhile_cons_of_neg (by simp [hc])]
      rfl

theorem quotedValue_strip (w tail g : List Char)
    (hw : '\n' ∉ w) (ht : TailOk tail)
    (hg : quotedValue (w ++ tail) = some g) :
    stripWsChars g =
      stripWsChars (dropTrailQuote (dropLeadQuote (dropTrailWs w))) := by
  cases w with
  | nil =>
    rw [List.nil_append] at hg
    have : quotedValue tail = some [] := by
      cases ht with
      | inl h => subst h; rfl
      | inr h => obtain ⟨t, rfl⟩ := h; rfl
    rw [this] at hg
    cases hg
    rfl
  | cons c w' =>
    have hnl' : '\n' ∉ w' := fun h => hw (List.mem_cons_of_mem c h)
    rw [show (c :: w') ++ tail = c :: (w' ++ tail) from rfl] at hg
    rw [show quotedValue (c :: (w' ++ tail)) =
      if quoteChar c then
        match lazyValue (w' ++ tail) with
        | some g => some g
        | none => lazyValue (c :: (w' ++ tail))
      else lazyValue (c :: (w' ++ tail)) from rfl] at hg
    by_cases hq : quoteChar c = true
    · rw [if_pos hq] at hg
      have hlz : lazyValue (w' ++ tail) = some g := by
        cases hl : lazyValue (w' ++ tail) with
        | none =>
          have := lazyValue_isSome (w' ++ tail)
          rw [hl] at this
          simp at this
        | some x =>
          rw [hl] at hg
          simp at hg
          rw [hg]
      have hd := lazyValue_dropTrail w' tail g hnl' ht hlz
      rw [stripWsChars_as_trail_lead, hd]
      rw [dropTrailWs_head_eq c w' (quote_not_ws c hq)]
      rw [show dropLeadQuote (c :: dropTrailWs w') =
        if quoteChar c then dropTrailWs w' else c :: dropTrailWs w' from rfl]
      rw [if_pos hq, stripWsChars_as_trail_lead]
    · rw [if_neg hq] at hg
      have hd := lazyValue_dropTrail (c :: w') tail g hw ht
        (by rw [show (c :: w') ++ tail = c :: (w' ++ tail) from rfl]; exact hg)
      rw [stripWsChars_as_trail_lead, hd]
      have hlead : dropLeadQuote (dropTrailWs (c :: w')) =
          dropTrailWs (c :: w') := by
        rw [dropTrailWs_cons]
        by_cases h1 : dropTrailWs w' = []
        · rw [if_pos h1]
          by_cases h2 : wsChar c = true
          · rw [if_pos h2]; rfl
          · rw [if_neg h2]
            rw [show dropLeadQuote [c] =
              if quoteChar c then [] else [c] from rfl, if_neg hq]
        · rw [if_neg h1]
          rw [show dropLeadQuote (c :: dropTrailWs w') =
            if quoteChar c then dropTrailWs w'
            else c :: dropTrailWs w' from rfl, if_neg hq]
      rw [hlead, stripWsChars_as_trail_lead]

theorem not_all_takeWhile_length (p : Char → Bool) (l : List Char)
    (h : ¬ l.all p = true) : ¬ (l.takeWhile p).length = l.length := by
  intro hlen
  apply h
  rw [List.all_eq_true]
  intro x hx
  have heq : l.takeWhile p = l :=
    (List.takeWhile_sublist p).eq_of_length hlen
  exact List.mem_takeWhile_imp (heq ▸ hx)

/-- The full value matcher `\s*['"]?(.*?)['"]?\s*$` applied after
`description:`, when the rest of the line contains a non-whitespace
character, matches within the line and yields (after the final `strip`)
exactly the claim's `specValue`. -/
theorem wsQuotedValue_spec (v tail : List Char)
    (hv : '\n' ∉ v) (hne : ¬ v.all wsChar = true) (ht : TailOk tail) :
    ∃ g, wsQuotedValue (wsPrefixLen (v ++ tail)) (v ++ tail) = some g ∧
      stripWsChars g = specValue v := by
  have hlen : ¬ (v.takeWhile wsChar).length = v.length :=
    not_all_takeWhile_length wsChar v hne
  have htw : (v ++ tail).takeWhile wsChar = v.takeWhile wsChar := by
    rw [List.takeWhile_append, if_neg hlen]
  have hk : wsPrefixLen (v ++ tail) = wsPrefixLen v := by
    unfold wsPrefixLen
    rw [htw]
  have hkle : wsPrefixLen v ≤ v.length := by
    unfold wsPrefixLen
    exact (List.takeWhile_sublist wsChar).length_le
  rw [hk, wsQuotedValue_eq, List.drop_append_of_le_length hkle]
  rw [show wsPrefixLen v = (v.takeWhile wsChar).length from rfl,
    drop_length_takeWhile]
  have hw : '\n' ∉ v.dropWhile wsChar :=
    fun h => hv ((List.dropWhile_sublist wsChar).subset h)
  have hsome := quotedValue_isSome (v.dropWhile wsChar ++ tail)
  cases hqv : quotedValue (v.dropWhile wsChar ++ tail) with
  | none => rw [hqv] at hsome; simp at hsome
  | some g =>
    refine ⟨g, rfl, ?_⟩
    rw [quotedValue_strip (v.dropWhile wsChar) tail g hw ht hqv]
    rw [show dropTrailWs (v.dropWhile wsChar) = stripWsChars v from rfl]
    rfl

theorem matchDescAt_value (v tail : List Char)
    (hv : '\n' ∉ v) (hne : ¬ v.all wsChar = true) (ht : TailOk tail) :
    ∃ g, matchDescAt (descKey ++ (v ++ tail)) = some g ∧
      stripWsChars g = specValue v := by
  obtain ⟨g, h1, h2⟩ := wsQuotedValue_spec v tail hv hne ht
  refine ⟨g, ?_, h2⟩
  rw [show matchDescAt (descKey ++ (v ++ tail)) =
    if descKey.isPrefixOf (descKey ++ (v ++ tail)) then
      wsQuotedValue (wsPrefixLen ((descKey ++ (v ++ tail)).drop descKey.length))
        ((descKey ++ (v ++ tail)).drop descKey.length)
    else none from rfl]
  rw [if_pos (List.isPrefixOf_iff_prefix.mpr
    (List.prefix_append descKey (v ++ tail)))]
  rw [List.drop_left]
  exact h1

theorem isPrefixOf_append_split :
    ∀ (a pat b : List Char), pat.isPrefixOf (a ++ b) = true →
      pat.isPrefixOf a = true ∨ ∃ p2, pat = a ++ p2 ∧ p2.isPrefixOf b = true
  | [], pat, b, h => Or.inr ⟨pat, rfl, h⟩
  | c :: a', pat, b, h => by
    cases pat with
    | nil => left; rfl
    | cons d pat' =>
      rw [List.cons_append] at h
      rw [show (d :: pat').isPrefixOf (c :: (a' ++ b)) =
        (d == c && pat'.isPrefixOf (a' ++ b)) from rfl] at h
      rw [Bool.and_eq_true, beq_iff_eq] at h
      obtain ⟨rfl, h2⟩ := h
      cases isPrefixOf_append_split a' pat' b h2 with
      | inl hp =>
        left
        rw [show (d :: pat').isPrefixOf (d :: a') =
          (d == d && pat'.isPrefixOf a') from rfl]
        simp [hp]
      | inr hp =>
        obtain ⟨p2, rfl, hb⟩ := hp
        right
        exact ⟨p2, rfl, hb⟩

theorem descKey_not_prefix_line (l rest2 : List Char)
    (hnp : ¬ descKey.isPrefixOf l = true) :
    ¬ descKey.isPrefixOf (l ++ '\n' :: rest2) = true := by
  intro h
  cases isPrefixOf_append_split l descKey ('\n' :: rest2) h with
  | inl h => exact hnp h
  | inr h =>
    obtain ⟨p2, hp, hb⟩ := h
    cases p2 with
    | nil =>
      apply hnp
      rw [List.append_nil] at hp
      rw [hp]
      exact List.isPrefixOf_iff_prefix.mpr (List.prefix_refl l)
    | cons e p2' =>
      have he : e = '\n' := by
        rw [show (e :: p2').isPrefixOf ('\n' :: rest2) =
          (e == '\n' && p2'.isPrefixOf rest2) from rfl, Bool.and_eq_true,
          beq_iff_eq] at hb
        exact hb.1
      have hmem : '\n' ∈ descKey := by
        rw [hp, ← he]
        exact List.mem_append_right l (List.mem_cons_self e p2')
      exact absurd hmem (by decide)

theorem lineStarts_append (l rest2 : List Char) (hnl : '\n' ∉ l) :
    lineStarts (l ++ '\n' :: rest2) = rest2 :: lineStarts rest2 := by
  induction l with
  | nil => rfl
  | cons c l' ih =>
    have hc : ¬ c = '\n' := fun h => hnl (h ▸ List.mem_cons_self c l')
    have hnl' : '\n' ∉ l' := fun h => hnl (List.mem_cons_of_mem c h)
    rw [List.cons_append]
    rw [show lineStarts (c :: (l' ++ '\n' :: rest2)) =
      if c = '\n' then (l' ++ '\n' :: rest2) :: lineStarts (l' ++ '\n' :: rest2)
      else lineStarts (l' ++ '\n' :: rest2) from rfl]
    rw [if_neg hc, ih hnl']

theorem searchDesc_head (F g : List Char) (h : matchDescAt F = some g) :
    searchDesc F = some g := by
  unfold searchDesc
  rw [show searchDescAux (F :: lineStarts F) =
    (match matchDescAt F with
     | some g => some g
     | none => searchDescAux (lineStarts F)) from rfl, h]

theorem searchDesc_skip (l rest2 : List Char)
    (hnl : '\n' ∉ l) (hnp : ¬ descKey.isPrefixOf l = true) :
    searchDesc (l ++ '\n' :: rest2) = searchDesc rest2 := by
  unfold searchDesc
  rw [lineStarts_append l rest2 hnl]
  have hm : matchDescAt (l ++ '\n' :: rest2) = none := by
    rw [show matchDescAt (l ++ '\n' :: rest2) =
      if descKey.isPrefixOf (l ++ '\n' :: rest2) then
        wsQuotedValue (wsPrefixLen ((l ++ '\n' :: rest2).drop descKey.length))
          ((l ++ '\n' :: rest2).drop descKey.length)
      else none from rfl]
    rw [if_neg (descKey_not_prefix_line l rest2 hnp)]
  rw [show searchDescAux ((l ++ '\n' :: rest2) :: rest2 :: lineStarts rest2) =
    (match matchDescAt (l ++ '\n' :: rest2) with
     | some g => some g
     | none => searchDescAux (rest2 :: lineStarts rest2)) from rfl, hm]

theorem joinSep_cons (sep : Char) (l : List Char) (L : List (List Char))
    (h : L ≠ []) : joinSep sep (l :: L) = l ++ sep :: joinSep sep L := by
  cases L with
  | nil => exact absurd rfl h
  | cons x xs => rfl

theorem searchDesc_joinNl :
    ∀ (pres posts : List (List Char)) (v : List Char),
      (∀ l ∈ pres, '\n' ∉ l ∧ ¬ descKey.isPrefixOf l = true) →
      '\n' ∉ v → ¬ v.all wsChar = true →
      ∃ g, searchDesc (joinSep '\n' (pres ++ (descKey ++ v) :: posts)) = some g ∧
        stripWsChars g = specValue v
  | [], posts, v, _, hv, hne => by
    cases posts with
    | nil =>
      obtain ⟨g, h1, h2⟩ := matchDescAt_value v [] hv hne (Or.inl rfl)
      refine ⟨g, searchDesc_head _ g ?_, h2⟩
      rw [show joinSep '\n' ([] ++ (descKey ++ v) :: []) = descKey ++ v from rfl]
      rw [show descKey ++ v = descKey ++ (v ++ []) by rw [List.append_nil]]
      exact h1
    | cons p ps =>
      obtain ⟨g, h1, h2⟩ := matchDescAt_value v ('\n' :: joinSep '\n' (p :: ps))
        hv hne (Or.inr ⟨_, rfl⟩)
      refine ⟨g, searchDesc_head _ g ?_, h2⟩
      rw [show joinSep '\n' ([] ++ (descKey ++ v) :: p :: ps) =
        (descKey ++ v) ++ '\n' :: joinSep '\n' (p :: ps) from rfl]
      rw [List.append_assoc]
      exact h1
  | l :: pres', posts, v, hpres, hv, hne => by
    have h0 := hpres l (List.mem_cons_self l pres')
    have hrest : ∀ x ∈ pres', '\n' ∉ x ∧ ¬ descKey.isPrefixOf x = true :=
      fun x hx => hpres x (List.mem_cons_of_mem l hx)
    obtain ⟨g, h1, h2⟩ := searchDesc_joinNl pres' posts v hrest hv hne
    refine ⟨g, ?_, h2⟩
    have hJ : joinSep '\n' ((l :: pres') ++ (descKey ++ v) :: posts) =
        l ++ '\n' :: joinSep '\n' (pres' ++ (descKey ++ v) :: posts) := by
      rw [List.cons_append]
      exact joinSep_cons '\n' l _ (by simp)
    rw [hJ, searchDesc_skip l _ h0.1 h0.2, h1]

theorem beforeFirst_prefix (pat l : List Char) (h : pat.isPrefixOf l = true) :
    beforeFirst pat l = some [] := by
  cases l with
  | nil => unfold beforeFirst; rw [if_pos h]
  | cons c rest => unfold beforeFirst; rw [if_pos h]

theorem beforeFirst_exact :
    ∀ (pre : List Char) (pat suf : List Char),
      (∀ i, i < pre.length →
        ¬ pat.isPrefixOf ((pre ++ pat ++ suf).drop i) = true) →
      beforeFirst pat (pre ++ pat ++ suf) = some pre
  | [], pat, suf, _ => by
    rw [List.nil_append]
    exact beforeFirst_prefix pat (pat ++ suf)
      (List.isPrefixOf_iff_prefix.mpr (List.prefix_append pat suf))
  | c :: pre', pat, suf, h => by
    have h0 := h 0 (Nat.succ_pos pre'.length)
    rw [List.drop_zero] at h0
    rw [show (c :: pre') ++ pat ++ suf = c :: (pre' ++ pat ++ suf) from rfl]
      at h0 ⊢
    unfold beforeFirst
    rw [if_neg h0]
    have hih := beforeFirst_exact pre' pat suf (fun i hi => by
      have := h (i + 1) (Nat.succ_lt_succ hi)
      rw [show ((c :: pre') ++ pat ++ suf) = c :: (pre' ++ pat ++ suf) from rfl,
        List.drop_succ_cons] at this
      exact this)
    rw [hih]
    rfl

/-- The first character of the frontmatter body is not whitespace (so the
greedy `\s*` of the opening regex stops right after the opening line). -/
def headNotWs : List Char → Bool
  | [] => false
  | c :: _ => !wsChar c

theorem extract_frontmatter_exact (body rest : List Char)
    (hhead : headNotWs body = true)
    (hnc : ∀ i, i < body.length →
      ¬ nlDashes.isPrefixOf ((body ++ nlDashes ++ rest).drop i) = true) :
    extract_frontmatter_chars (dashes3 ++ '\n' :: (body ++ nlDashes ++ rest)) =
      some body := by
  cases body with
  | nil => cases hhead
  | cons b body' =>
    have hb : wsChar b = false := by simpa [headNotWs] using hhead
    have hbne : ¬ b = '\n' := by
      intro h
      subst h
      rw [newline_wsChar] at hb
      cases hb
    unfold extract_frontmatter_chars
    rw [if_pos (List.isPrefixOf_iff_prefix.mpr
      (List.prefix_append dashes3 ('\n' :: ((b :: body') ++ nlDashes ++ rest))))]
    rw [show (3 : Nat) = dashes3.length from rfl, List.drop_left]
    have hws : wsPrefixLen ('\n' :: ((b :: body') ++ nlDashes ++ rest)) = 1 := by
      unfold wsPrefixLen
      rw [List.takeWhile_cons_of_pos newline_wsChar]
      rw [show ((b :: body') ++ nlDashes ++ rest) =
        b :: (body' ++ nlDashes ++ rest) from rfl]
      rw [List.takeWhile_cons_of_neg (by simp [hb])]
      rfl
    rw [hws]
    rw [show fmBody 1 ('\n' :: ((b :: body') ++ nlDashes ++ rest)) =
      (match ('\n' :: ((b :: body') ++ nlDashes ++ rest)).drop 1 with
       | c :: tail =>
         if c = '\n' then
           match beforeFirst nlDashes tail with
           | some g => some g
           | none => fmBody 0 ('\n' :: ((b :: body') ++ nlDashes ++ rest))
         else fmBody 0 ('\n' :: ((b :: body') ++ nlDashes ++ rest))
       | [] => fmBody 0 ('\n' :: ((b :: body') ++ nlDashes ++ rest)))
      from rfl]
    rw [show ('\n' :: ((b :: body') ++ nlDashes ++ rest)).drop 1 =
      b :: (body' ++ nlDashes ++ rest) from rfl]
    simp only [hbne, if_false]
    rw [show fmBody 0 ('\n' :: ((b :: body') ++ nlDashes ++ rest)) =
      (if ('\n' : Char) = '\n' then
        beforeFirst nlDashes ((b :: body') ++ nlDashes ++ rest)
      else none) from rfl]
    rw [if_pos rfl]
    exact beforeFirst_exact (b :: body') nlDashes rest hnc

theorem beforeFirst_sound (pat : List Char) :
    ∀ (l pre : List Char), beforeFirst pat l = some pre →
      ∃ suf, l = pre ++ pat ++ suf
  | [], pre, h => by
    unfold beforeFirst at h
    by_cases hp : pat.isPrefixOf ([] : List Char) = true
    · rw [if_pos hp] at h
      cases h
      have hpn : pat = [] := by
        cases pat with
        | nil => rfl
        | cons c cs => cases hp
      exact ⟨[], by simp [hpn]⟩
    · rw [if_neg hp] at h
      cases h
  | c :: rest, pre, h => by
    unfold beforeFirst at h
    by_cases hp : pat.isPrefixOf (c :: rest) = true
    · rw [if_pos hp] at h
      cases h
      obtain ⟨suf, hsuf⟩ := List.isPrefixOf_iff_prefix.mp hp
      exact ⟨suf, by rw [List.nil_append, ← hsuf]⟩
    · rw [if_neg hp] at h
      cases hb : beforeFirst pat rest with
      | none => rw [hb] at h; cases h
      | some pre' =>
        rw [hb] at h
        rw [Option.map_some', Option.some_inj] at h
        obtain ⟨suf, hsuf⟩ := beforeFirst_sound pat rest pre' hb
        exact ⟨suf, by rw [← h, hsuf]; rfl⟩

theorem mem_take_ws (l : List Char) (i : Nat) (hi : i ≤ wsPrefixLen l) :
    ∀ c ∈ l.take i, wsChar c = true := by
  intro c hc
  have heq : l.take i = (l.takeWhile wsChar).take i := by
    conv_lhs => rw [← List.takeWhile_append_dropWhile wsChar l]
    rw [List.take_append_of_le_length hi]
  rw [heq] at hc
  exact List.mem_takeWhile_imp (List.mem_of_mem_take hc)

theorem fmBody_sound :
    ∀ (k : Nat) (rest g : List Char), k ≤ wsPrefixLen rest →
      fmBody k rest = some g →
      ∃ ws suf, (∀ c ∈ ws, wsChar c = true) ∧
        rest = ws ++ '\n' :: (g ++ nlDashes ++ suf)
  | 0, rest, g, _, h => by
    cases rest with
    | nil => cases h
    | cons c tail =>
      rw [show fmBody 0 (c :: tail) =
        (if c = '\n' then beforeFirst nlDashes tail else none) from rfl] at h
      by_cases hc : c = '\n'
      · rw [if_pos hc] at h
        obtain ⟨suf, hsuf⟩ := beforeFirst_sound nlDashes tail g h
        refine ⟨[], suf, by simp, ?_⟩
        rw [hc, hsuf]
        simp
      · rw [if_neg hc] at h
        cases h
  | k + 1, rest, g, hk, h => by
    rw [show fmBody (k + 1) rest =
      (match rest.drop (k + 1) with
       | c :: tail =>
         if c = '\n' then
           match beforeFirst nlDashes tail with
           | some g => some g
           | none => fmBody k rest
         else fmBody k rest
       | [] => fmBody k rest) from rfl] at h
    cases hd : rest.drop (k + 1) with
    | nil =>
      rw [hd] at h
      exact fmBody_sound k rest g (le_trans (Nat.le_succ k) hk) h
    | cons c tail =>
      rw [hd] at h
      have h' : (if c = '\n' then
          (match beforeFirst nlDashes tail with
           | some g => some g
           | none => fmBody k rest)
        else fmBody k rest) = some g := h
      by_cases hc : c = '\n'
      · rw [if_pos hc] at h'
        cases hb : beforeFirst nlDashes tail with
        | none =>
          rw [hb] at h'
          exact fmBody_sound k rest g (le_trans (Nat.le_succ k) hk) h'
        | some g' =>
          rw [hb] at h'
          cases h'
          obtain ⟨suf, hsuf⟩ := beforeFirst_sound nlDashes tail g hb
          refine ⟨rest.take (k + 1), suf, mem_take_ws rest (k + 1) hk, ?_⟩
          conv_lhs => rw [← List.take_append_drop (k + 1) rest]
          rw [hd, hc, hsuf]
      · rw [if_neg hc] at h'
        exact fmBody_sound k rest g (le_trans (Nat.le_succ k) hk) h'

/-- Claim-side reading of "the content begins with a frontmatter block": a
line of three dashes (with optional trailing whitespace), some lines, and
a closing line starting with three dashes. -/
def BeginsWithFrontmatter (content : List Char) : Prop :=
  ∃ ws body rest, (∀ c ∈ ws, wsChar c = true) ∧
    content = dashes3 ++ (ws ++ '\n' :: (body ++ nlDashes ++ rest))

theorem extract_frontmatter_decomp (content fm : List Char)
    (h : extract_frontmatter_chars content = some fm) :
    ∃ ws suf, (∀ c ∈ ws, wsChar c = true) ∧
      content = dashes3 ++ (ws ++ '\n' :: (fm ++ nlDashes ++ suf)) := by
  unfold extract_frontmatter_chars at h
  by_cases hp : dashes3.isPrefixOf content = true
  · rw [if_pos hp] at h
    obtain ⟨t, ht⟩ := List.isPrefixOf_iff_prefix.mp hp
    have hd : content.drop 3 = t := by
      rw [← ht, show (3 : Nat) = dashes3.length from rfl, List.drop_left]
    rw [hd] at h
    obtain ⟨ws, suf, hws, hdecomp⟩ :=
      fmBody_sound (wsPrefixLen t) t fm (Nat.le_refl _) h
    exact ⟨ws, suf, hws, by rw [← ht, hdecomp]⟩
  · rw [if_neg hp] at h
    cases h

theorem extract_frontmatter_sound (content fm : List Char)
    (h : extract_frontmatter_chars content = some fm) :
    BeginsWithFrontmatter content := by
  obtain ⟨ws, suf, hws, hdecomp⟩ := extract_frontmatter_decomp content fm h
  exact ⟨ws, fm, suf, hws, hdecomp⟩

theorem matchDescAt_sound (F g : List Char) (h : matchDescAt F = some g) :
    descKey.isPrefixOf F = true := by
  by_cases hp : descKey.isPrefixOf F = true
  · exact hp
  · unfold matchDescAt at h
    rw [if_neg hp] at h
    cases h

def isNl (c : Char) : Bool := c = '\n'

/-- The lines of a character list (pieces between newlines). -/
def linesOf (l : List Char) : List (List Char) := splitP isNl l

theorem splitP_cons_pos (p : Char → Bool) (c : Char) (rest : List Char)
    (hc : p c = true) : splitP p (c :: rest) = [] :: splitP p rest := by
  conv_lhs => rw [splitP]
  rw [if_pos hc]

theorem splitP_cons_neg (p : Char → Bool) (c : Char) (rest : List Char)
    (hc : ¬ p c = true) :
    splitP p (c :: rest) =
      (match splitP p rest with
       | g :: gs => (c :: g) :: gs
       | [] => [[c]]) := by
  conv_lhs => rw [splitP]
  rw [if_neg hc]

theorem splitP_ne_nil (p : Char → Bool) : ∀ l : List Char, splitP p l ≠ []
  | [] => by simp [splitP]
  | c :: rest => by
    unfold splitP
    by_cases hc : p c = true
    · simp [hc]
    · cases hs : splitP p rest with
      | nil => exact absurd hs (splitP_ne_nil p rest)
      | cons g gs => simp [hc, hs]

theorem splitP_append_sep (p : Char → Bool) (c : Char) (hc : p c = true) :
    ∀ (x y : List Char), splitP p (x ++ c :: y) = splitP p x ++ splitP p y
  | [], y => by
    rw [List.nil_append, splitP_cons_pos p c y hc,
      show splitP p [] = [[]] from rfl]
    rfl
  | d :: x', y => by
    rw [List.cons_append]
    by_cases hd : p d = true
    · rw [splitP_cons_pos p d (x' ++ c :: y) hd]
      rw [splitP_append_sep p c hc x' y]
      rw [splitP_cons_pos p d x' hd]
      rfl
    · cases hs : splitP p x' with
      | nil => exact absurd hs (splitP_ne_nil p x')
      | cons g gs =>
        rw [splitP_cons_neg p d (x' ++ c :: y) hd]
        rw [splitP_append_sep p c hc x' y, hs]
        rw [splitP_cons_neg p d x' hd, hs]
        rfl

theorem splitP_head_prefix (p : Char → Bool) :
    ∀ (pat l : List Char), pat.isPrefixOf l = true →
      (∀ c ∈ pat, p c = false) →
      ∃ g gs, splitP p l = g :: gs ∧ pat.isPrefixOf g = true
  | [], l, _, _ => by
    cases hs : splitP p l with
    | nil => exact absurd hs (splitP_ne_nil p l)
    | cons g gs => exact ⟨g, gs, rfl, by simp [List.isPrefixOf]⟩
  | c :: pat', l, h, hp => by
    cases l with
    | nil => cases h
    | cons d rest =>
      rw [show (c :: pat').isPrefixOf (d :: rest) =
        (c == d && pat'.isPrefixOf rest) from rfl, Bool.and_eq_true,
        beq_iff_eq] at h
      obtain ⟨rfl, h2⟩ := h
      have hd : p c = false := hp c (List.mem_cons_self c pat')
      obtain ⟨g, gs, hs, hg⟩ := splitP_head_prefix p pat' rest h2
        (fun x hx => hp x (List.mem_cons_of_mem c hx))
      refine ⟨c :: g, gs, ?_, ?_⟩
      · rw [splitP_cons_neg p c rest (by simp [hd]), hs]
      · rw [show (c :: pat').isPrefixOf (c :: g) =
          (c == c && pat'.isPrefixOf g) from rfl]
        simp [hg]

theorem lineStarts_mem :
    ∀ (l x : List Char), x ∈ lineStarts l → ∃ pre, l = pre ++ '\n' :: x
  | [], x, h => by simp [lineStarts] at h
  | c :: rest, x, h => by
    by_cases hc : c = '\n'
    · rw [show lineStarts (c :: rest) =
        if c = '\n' then rest :: lineStarts rest else lineStarts rest from rfl,
        if_pos hc] at h
      cases List.mem_cons.mp h with
      | inl he => exact ⟨[], by rw [hc, he]; rfl⟩
      | inr hm =>
        obtain ⟨pre, hp⟩ := lineStarts_mem rest x hm
        exact ⟨c :: pre, by rw [hp]; rfl⟩
    · rw [show lineStarts (c :: rest) =
        if c = '\n' then rest :: lineStarts rest else lineStarts rest from rfl,
        if_neg hc] at h
      obtain ⟨pre, hp⟩ := lineStarts_mem rest x h
      exact ⟨c :: pre, by rw [hp]; rfl⟩

theorem searchDescAux_sound :
    ∀ (L : List (List Char)) (g : List Char), searchDescAux L = some g →
      ∃ f ∈ L, matchDescAt f = some g
  | [], g, h => by cases h
  | f :: fs, g, h => by
    unfold searchDescAux at h
    cases hm : matchDescAt f with
    | some g' =>
      rw [hm] at h
      cases h
      exact ⟨f, List.mem_cons_self f fs, hm⟩
    | none =>
      rw [hm] at h
      obtain ⟨f', hf', hm'⟩ := searchDescAux_sound fs g h
      exact ⟨f', List.mem_cons_of_mem f hf', hm'⟩

theorem searchDesc_sound (fm g : List Char) (h : searchDesc fm = some g) :
    ∃ line ∈ linesOf fm, descKey.isPrefixOf line = true := by
  obtain ⟨f, hf, hm⟩ := searchDescAux_sound (fm :: lineStarts fm) g h
  have hpre := matchDescAt_sound f g hm
  have hnk : ∀ c ∈ descKey, isNl c = false := by decide
  cases List.mem_cons.mp hf with
  | inl he =>
    subst he
    obtain ⟨g', gs, hs, hg⟩ := splitP_head_prefix isNl descKey f hpre hnk
    exact ⟨g', by rw [linesOf, hs]; exact List.mem_cons_self g' gs, hg⟩
  | inr hm2 =>
    obtain ⟨pre, hl⟩ := lineStarts_mem fm f hm2
    obtain ⟨g', gs, hs, hg⟩ := splitP_head_prefix isNl descKey f hpre hnk
    refine ⟨g', ?_, hg⟩
    rw [linesOf, hl, splitP_append_sep isNl '\n' (by decide) pre f]
    exact List.mem_append_right _ (by rw [hs]; exact List.mem_cons_self g' gs)

/-- The functional pipeline's extraction agrees with the imperative one on
every input (its extra falsy gates change nothing observable). -/
theorem extract_descriptionF_eq (x : Option String) :
    extract_descriptionF x = extract_description x := by
  cases x with
  | none => rfl
  | some content =>
    by_cases hc : content = ""
    · subst hc
      rfl
    · have hlhs : extract_descriptionF (some content) =
          (match extract_frontmatter_chars content.data with
           | none => ""
           | some fm =>
             if String.mk fm = "" then ""
             else extract_description_from_frontmatter (String.mk fm)) := by
        simp only [extract_descriptionF, extract_frontmatter]
        rw [if_neg hc]
        cases hf : extract_frontmatter_chars content.data with
        | none => rfl
        | some fm => rfl
      rw [hlhs]
      rw [show extract_description (some content) =
          (match extract_frontmatter_chars content.data with
           | none => ""
           | some fm =>
             match searchDesc fm with
             | none => ""
             | some g => String.mk (stripWsChars g)) from rfl]
      cases hf : extract_frontmatter_chars content.data with
      | none => rfl
      | some fm =>
        show (if String.mk fm = "" then ""
            else extract_description_from_frontmatter (String.mk fm)) =
          (match searchDesc fm with
           | none => ""
           | some g => String.mk (stripWsChars g))
        by_cases hfm : String.mk fm = ""
        · rw [if_pos hfm]
          have hfm' : fm = [] := by
            have := congrArg String.data hfm
            simpa using this
          subst hfm'
          rfl
        · rw [if_neg hfm]
          unfold extract_description_from_frontmatter
          rw [show (String.mk fm).data = fm from rfl]

theorem extract_description_no_fm (content : String)
    (h : ¬ BeginsWithFrontmatter content.data) :
    extract_description (some content) = "" := by
  simp only [extract_description]
  cases hf : extract_frontmatter_chars content.data with
  | none => rfl
  | some fm => exact absurd (extract_frontmatter_sound _ fm hf) h

theorem extract_description_no_key (content : String)
    (h : ∀ line ∈ linesOf content.data, ¬ descKey.isPrefixOf line = true) :
    extract_description (some content) = "" := by
  simp only [extract_description]
  cases hf : extract_frontmatter_chars content.data with
  | none => rfl
  | some fm =>
    show (match searchDesc fm with
          | none => ""
          | some g => String.mk (stripWsChars g)) = ""
    cases hs : searchDesc fm with
    | none => rfl
    | some g =>
      exfalso
      obtain ⟨line, hline, hpre⟩ := searchDesc_sound fm g hs
      obtain ⟨ws, suf, hws, hdecomp⟩ := extract_frontmatter_decomp _ fm hf
      apply h line ?_ hpre
      rw [hdecomp]
      have hre : dashes3 ++ (ws ++ '\n' :: (fm ++ nlDashes ++ suf)) =
          (dashes3 ++ ws) ++ '\n' :: (fm ++ '\n' :: (dashes3 ++ suf)) := by
        rw [show nlDashes = '\n' :: dashes3 from rfl]
        simp [List.append_assoc]
      rw [hre, linesOf,
        splitP_append_sep isNl '\n' (by decide) (dashes3 ++ ws)
          (fm ++ '\n' :: (dashes3 ++ suf)),
        splitP_append_sep isNl '\n' (by decide) fm (dashes3 ++ suf)]
      exact List.mem_append_right _ (List.mem_append_left _ hline)

theorem joinNl_desc_ne_nil (pres posts : List (List Char)) (v : List Char) :
    joinSep '\n' (pres ++ (descKey ++ v) :: posts) ≠ [] := by
  cases pres with
  | nil =>
    cases posts with
    | nil => simp [joinSep, descKey]
    | cons p ps => simp [joinSep_cons '\n' _ (p :: ps) (by simp), descKey]
  | cons l ls =>
    rw [List.cons_append, joinSep_cons '\n' l _ (by simp)]
    simp

/-- Positive case of claim C6: a frontmatter whose first line is not
whitespace-led, whose body has no early `\n---`, with no `description:`
line before the one described, and whose `description:` line has a
non-whitespace value `v` — the extracted description is `specValue v`. -/
theorem extract_description_exact (pres posts : List (List Char))
    (v rest : List Char)
    (hpres : ∀ l ∈ pres, '\n' ∉ l ∧ ¬ descKey.isPrefixOf l = true)
    (hv : '\n' ∉ v) (hne : ¬ v.all wsChar = true)
    (hhead : headNotWs (joinSep '\n' (pres ++ (descKey ++ v) :: posts)) = true)
    (hnc : ∀ i, i < (joinSep '\n' (pres ++ (descKey ++ v) :: posts)).length →
      ¬ nlDashes.isPrefixOf
        ((joinSep '\n' (pres ++ (descKey ++ v) :: posts) ++ nlDashes ++ rest).drop i)
        = true) :
    extract_description (some (String.mk (dashes3 ++ '\n' ::
        (joinSep '\n' (pres ++ (descKey ++ v) :: posts) ++ nlDashes ++ rest)))) =
      String.mk (specValue v) := by
  obtain ⟨g, hsearch, hstrip⟩ := searchDesc_joinNl pres posts v hpres hv hne
  have hfm := extract_frontmatter_exact
    (joinSep '\n' (pres ++ (descKey ++ v) :: posts)) rest hhead hnc
  simp only [extract_description]
  rw [hfm]
  show (match searchDesc (joinSep '\n' (pres ++ (descKey ++ v) :: posts)) with
        | none => ""
        | some g => String.mk (stripWsChars g)) = String.mk (specValue v)
  rw [hsearch]
  show String.mk (stripWsChars g) = String.mk (specValue v)
  rw [hstrip]

/-- **C6** (corrected).  Description extraction never raises (it is a
total function here, and both variants agree everywhere); a failed read
yields `""`; content that does not begin with a frontmatter block yields
`""`; a frontmatter with no `description:` key line yields `""`; and when
the first `description:` key line has a value containing a non-whitespace
character, the description is that value with optional surrounding quotes
and whitespace stripped (`specValue`).  The claim's unconditional fourth
clause is false: on a `description:` key whose value is empty, the
regex's `\s*` crosses the newline and the description is taken from the
following line — see `C6_counterexample`. -/
theorem C6_description_extraction :
    (extract_description none = "" ∧ extract_descriptionF none = "") ∧
    (∀ x : Option String, extract_descriptionF x = extract_description x) ∧
    (∀ content : String, ¬ BeginsWithFrontmatter content.data →
      extract_description (some content) = "") ∧
    (∀ content : String,
      (∀ line ∈ linesOf content.data, ¬ descKey.isPrefixOf line = true) →
      extract_description (some content) = "") ∧
    (∀ (pres posts : List (List Char)) (v rest : List Char),
      (∀ l ∈ pres, '\n' ∉ l ∧ ¬ descKey.isPrefixOf l = true) →
      '\n' ∉ v → ¬ v.all wsChar = true →
      headNotWs (joinSep '\n' (pres ++ (descKey ++ v) :: posts)) = true →
      (∀ i, i < (joinSep '\n' (pres ++ (descKey ++ v) :: posts)).length →
        ¬ nlDashes.isPrefixOf
          ((joinSep '\n' (pres ++ (descKey ++ v) :: posts) ++
            nlDashes ++ rest).drop i) = true) →
      extract_description (some (String.mk (dashes3 ++ '\n' ::
        (joinSep '\n' (pres ++ (descKey ++ v) :: posts) ++
          nlDashes ++ rest)))) = String.mk (specValue v)) :=
  ⟨⟨rfl, rfl⟩, extract_descriptionF_eq, extract_description_no_fm,
    extract_description_no_key, extract_description_exact⟩

/-- **C6** counterexample to the claim as stated: the frontmatter
`---\ndescription:\nfoo\n---` has a `description:` key line whose value is
empty, so the claim demands `""`; the code returns `"foo"` (the regex's
greedy `\s*` consumes the newline and the lazy group matches the next
line). -/
theorem C6_counterexample :
    extract_description (some "---\ndescription:\nfoo\n---") = "foo" ∧
    ("foo" : String) ≠ "" := by
  constructor
  · decide
  · decide

/-- Witness for C6 at concrete inputs: no frontmatter, frontmatter without
the key, and a well-formed `description: hello` line. -/
theorem C6_witness :
    extract_description (some (String.mk ['x'])) = "" ∧
    extract_description (some "---\nfoo: 1\n---") = "" ∧
    extract_description (some (String.mk (dashes3 ++ '\n' ::
      (joinSep '\n' ([] ++ (descKey ++ (' ' :: ['h', 'e', 'l', 'l', 'o'])) :: []) ++
        nlDashes ++ [])))) =
      String.mk (specValue (' ' :: ['h', 'e', 'l', 'l', 'o'])) :=
  ⟨C6_description_extraction.2.2.1 (String.mk ['x']) (fun h => by
      obtain ⟨ws, body, rest, hws, he⟩ := h
      rw [show (String.mk ['x']).data = ['x'] from rfl] at he
      simp [dashes3] at he),
   C6_description_extraction.2.2.2.1 "---\nfoo: 1\n---" (by decide),
   C6_description_extraction.2.2.2.2 [] [] (' ' :: ['h', 'e', 'l', 'l', 'o']) []
     (by decide) (by decide) (by decide) (by decide) (by decide)⟩

/-! ## Directory trees and the two scanners

`FSTree` models a directory subtree; `descendants` models
`directory.rglob("*")` (every strict descendant, files and directories),
`childrenList` models `directory.iterdir()`.  `pathlib` paths compare by
their parts tuple, each component by code points; `sorted(...)` is
modelled by `List.insertionSort` over that order (`partsLe`).  In this
model reading a file always succeeds; a read failure is the `none` case
of `extract_description`, treated in claim C6. -/

mutual
inductive FSTree where
  | file (content : String) : FSTree
  | dir (entries : FSEntries) : FSTree
deriving DecidableEq

inductive FSEntries where
  | nil : FSEntries
  | cons (name : String) (t : FSTree) (tl : FSEntries) : FSEntries
deriving DecidableEq
end

def FSTree.isFile : FSTree → Bool
  | .file _ => true
  | .dir _ => false

def FSTree.isDir : FSTree → Bool
  | .file _ => false
  | .dir _ => true

def FSTree.contentOf : FSTree → String
  | .file c => c
  | .dir _ => ""

def FSTree.entriesOf : FSTree → FSEntries
  | .file _ => .nil
  | .dir es => es

mutual
/-- `rglob("*")`: every strict descendant with its absolute path. -/
def descendants (base : List String) : FSTree → List (List String × FSTree)
  | .file _ => []
  | .dir es => descendantsEntries base es

def descendantsEntries (base : List String) :
    FSEntries → List (List String × FSTree)
  | .nil => []
  | .cons n t tl =>
    (base ++ [n], t) :: (descendants (base ++ [n]) t ++ descendantsEntries base tl)
end

/-- `iterdir()`: the immediate children with their absolute paths. -/
def childrenList (base : List String) : FSEntries → List (List String × FSTree)
  | .nil => []
  | .cons n t tl => (base ++ [n], t) :: childrenList base tl

/-- Code-point lexicographic order on strings (Python string `<`). -/
def charListLt : List Char → List Char → Bool
  | [], [] => false
  | [], _ :: _ => true
  | _ :: _, [] => false
  | a :: as, b :: bs =>
    if a.toNat < b.toNat then true
    else if b.toNat < a.toNat then false
    else charListLt as bs

def strLt (a b : String) : Bool := charListLt a.data b.data

/-- `pathlib` path comparison: lexicographic on the parts tuple. -/
def partsLe : List String → List String → Bool
  | [], _ => true
  | _ :: _, [] => false
  | a :: as, b :: bs =>
    if strLt a b then true
    else if strLt b a then false
    else partsLe as bs

theorem charListLt_total :
    ∀ a b : List Char, charListLt a b = true ∨ charListLt b a = true ∨ a = b
  | [], [] => Or.inr (Or.inr rfl)
  | [], _ :: _ => Or.inl rfl
  | _ :: _, [] => Or.inr (Or.inl rfl)
  | a :: as, b :: bs => by
    by_cases h1 : a.toNat < b.toNat
    · left
      unfold charListLt
      rw [if_pos h1]
    · by_cases h2 : b.toNat < a.toNat
      · right; left
        unfold charListLt
        rw [if_pos h2]
      · have hab : a = b := by
          have : a.toNat = b.toNat := Nat.le_antisymm (Nat.le_of_not_lt h2)
            (Nat.le_of_not_lt h1)
          have hc := Char.ofNat_toNat a
          rw [← hc, this, Char.ofNat_toNat]
        subst hab
        cases charListLt_total as bs with
        | inl h => left; unfold charListLt; rw [if_neg h1, if_neg h1]; exact h
        | inr h =>
          cases h with
          | inl h => right; left; unfold charListLt; rw [if_neg h1, if_neg h1]; exact h
          | inr h => right; right; rw [h]

theorem charListLt_asymm :
    ∀ a b : List Char, charListLt a b = true → charListLt b a = false
  | [], [], h => by cases h
  | [], _ :: _, _ => rfl
  | _ :: _, [], h => by cases h
  | a :: as, b :: bs, h => by
    unfold charListLt at h ⊢
    by_cases h1 : a.toNat < b.toNat
    · rw [if_neg (Nat.lt_asymm h1), if_pos h1]
    · rw [if_neg h1] at h
      by_cases h2 : b.toNat < a.toNat
      · rw [if_pos h2] at h
        cases h
      · rw [if_neg h2] at h
        rw [if_neg h2, if_neg h1]
        exact charListLt_asymm as bs h

theorem charListLt_irrefl (a : List Char) : charListLt a a = false := by
  induction a with
  | nil => rfl
  | cons c as ih =>
    unfold charListLt
    rw [if_neg (Nat.lt_irrefl c.toNat), if_neg (Nat.lt_irrefl c.toNat)]
    exact ih

theorem charListLt_nil_right : ∀ b : List Char, charListLt b [] = false
  | [] => rfl
  | _ :: _ => rfl

theorem charListLt_trans :
    ∀ a b c : List Char, charListLt a b = true → charListLt b c = true →
      charListLt a c = true
  | [], b, [], _, h2 => by rw [charListLt_nil_right b] at h2; cases h2
  | [], _, _ :: _, _, _ => rfl
  | _ :: _, [], _, h1, _ => by cases h1
  | a :: as, b :: bs, [], _, h2 => by
    rw [charListLt_nil_right (b :: bs)] at h2
    cases h2
  | a :: as, b :: bs, c :: cs, h1, h2 => by
    unfold charListLt at h1 h2 ⊢
    by_cases hab : a.toNat < b.toNat
    · by_cases hbc : b.toNat < c.toNat
      · rw [if_pos (Nat.lt_trans hab hbc)]
      · rw [if_neg hbc] at h2
        by_cases hcb : c.toNat < b.toNat
        · rw [if_pos hcb] at h2
          cases h2
        · have hac : a.toNat < c.toNat := by omega
          rw [if_pos hac]
    · rw [if_neg hab] at h1
      by_cases hba : b.toNat < a.toNat
      · rw [if_pos hba] at h1
        cases h1
      · rw [if_neg hba] at h1
        by_cases hbc : b.toNat < c.toNat
        · have hac : a.toNat < c.toNat := by
            have hab2 : a.toNat = b.toNat :=
              Nat.le_antisymm (Nat.le_of_not_lt hba) (Nat.le_of_not_lt hab)
            omega
          rw [if_pos hac]
        · rw [if_neg hbc] at h2
          by_cases hcb : c.toNat < b.toNat
          · rw [if_pos hcb] at h2
            cases h2
          · rw [if_neg hcb] at h2
            have hac1 : ¬ a.toNat < c.toNat := by omega
            have hac2 : ¬ c.toNat < a.toNat := by omega
            rw [if_neg hac1, if_neg hac2]
            exact charListLt_trans as bs cs h1 h2

theorem strLt_eq_of_not (a b : String)
    (h1 : ¬ strLt a b = true) (h2 : ¬ strLt b a = true) : a = b := by
  cases charListLt_total a.data b.data with
  | inl h => exact absurd h h1
  | inr h =>
    cases h with
    | inl h => exact absurd h h2
    | inr h =>
      cases a with
      | mk da =>
        cases b with
        | mk db =>
          simp only at h
          rw [h]

theorem partsLe_total : ∀ a b : List String, partsLe a b = true ∨ partsLe b a = true
  | [], _ => Or.inl rfl
  | _ :: _, [] => Or.inr rfl
  | a :: as, b :: bs => by
    by_cases h1 : strLt a b = true
    · left
      unfold partsLe
      rw [if_pos h1]
    · by_cases h2 : strLt b a = true
      · right
        unfold partsLe
        rw [if_pos h2]
      · have hab : a = b := strLt_eq_of_not a b h1 h2
        subst hab
        cases partsLe_total as bs with
        | inl h => left; unfold partsLe; rw [if_neg h1, if_neg h1]; exact h
        | inr h => right; unfold partsLe; rw [if_neg h1, if_neg h1]; exact h

theorem partsLe_trans :
    ∀ a b c : List String, partsLe a b = true → partsLe b c = true →
      partsLe a c = true
  | [], _, _, _, _ => rfl
  | _ :: _, [], _, h1, _ => by cases h1
  | _ :: _, _ :: _, [], _, h2 => by cases h2
  | a :: as, b :: bs, c :: cs, h1, h2 => by
    unfold partsLe at h1 h2 ⊢
    by_cases hab : strLt a b = true
    · by_cases hbc : strLt b c = true
      · have hac : strLt a c = true := by
          unfold strLt at hab hbc ⊢
          exact charListLt_trans a.data b.data c.data hab hbc
        rw [if_pos hac]
      · rw [if_neg hbc] at h2
        by_cases hcb : strLt c b = true
        · rw [if_pos hcb] at h2
          cases h2
        · have hbceq : b = c := strLt_eq_of_not b c hbc hcb
          subst hbceq
          rw [if_pos hab]
    · rw [if_neg hab] at h1
      by_cases hba : strLt b a = true
      · rw [if_pos hba] at h1
        cases h1
      · rw [if_neg hba] at h1
        have habeq : a = b := strLt_eq_of_not a b hab hba
        subst habeq
        by_cases hac : strLt a c = true
        · rw [if_pos hac]
        · rw [if_neg hac] at h2 ⊢
          by_cases hca : strLt c a = true
          · rw [if_pos hca] at h2
            cases h2
          · rw [if_neg hca] at h2 ⊢
            exact partsLe_trans as bs cs h1 h2

/-- The `pathlib` order on scan items (path with its tree node). -/
def pathPairLe (x y : List String × FSTree) : Prop := partsLe x.1 y.1 = true

instance : DecidableRel pathPairLe :=
  fun x y => inferInstanceAs (Decidable (partsLe x.1 y.1 = true))

instance : IsTotal (List String × FSTree) pathPairLe :=
  ⟨fun a b => partsLe_total a.1 b.1⟩

instance : IsTrans (List String × FSTree) pathPairLe :=
  ⟨fun a b c => partsLe_trans a.1 b.1 c.1⟩

/-- Python `sorted(...)` on `pathlib` paths. -/
def sortedPairs (l : List (List String × FSTree)) : List (List String × FSTree) :=
  List.insertionSort pathPairLe l

/-! ### The functional scanner
(`my/curadoria/generate-stack.py`: `should_scan_recursively`,
`scan_directory_files`, `normalize_path`, `create_file_entry`,
`process_directory`) -/

structure FileEntry where
  type : String
  path : String
  description : String
deriving DecidableEq

def should_scan_recursively (dir_type : String) : Bool :=
  !(dir_type == "skills" || dir_type == "plugins")

def scan_directory_files (dirPath : List String) (t : FSTree)
    (recursive : Bool) : List (List String × FSTree) :=
  if recursive then
    sortedPairs ((descendants dirPath t).filter (fun x => x.2.isFile))
  else
    sortedPairs ((childrenList dirPath t.entriesOf).filter (fun x => x.2.isDir))

/-- `.replace("/", "\\")` (a single-character replacement is a map). -/
def replaceSlashChars (l : List Char) : List Char :=
  l.map (fun c => if c = '/' then '\\' else c)

/-- `normalize_path`: `relative_to` (requires the root to be a prefix,
`ValueError` → `none`) followed by POSIX `str()` and the separator
replacement. -/
def normalize_path (fileParts repoRoot : List String) : Option String :=
  if repoRoot.isPrefixOf fileParts then
    some (String.mk (replaceSlashChars
      (joinSep '/' ((fileParts.drop repoRoot.length).map String.data))))
  else none

def create_file_entry (p : List String) (node : FSTree)
    (repoRoot : List String) (dirType : String) : Option FileEntry :=
  match normalize_path p repoRoot with
  | none => none
  | some np =>
    some ⟨dirType, np,
      if node.isDir then "" else extract_description (some node.contentOf)⟩

def process_directory (repoRoot dirPath : List String) (t : FSTree) :
    String × List FileEntry :=
  let dir_type := dirPath.getLastD ""
  let items := scan_directory_files dirPath t (should_scan_recursively dir_type)
  (dir_type, items.filterMap (fun x => create_file_entry x.1 x.2 repoRoot dir_type))

/-! ### The imperative scanner
(`curadoria/generate-stack.py`, lines 47–77: `list_directory`; it always
scans deep — `sorted(directory.rglob("*"))` filtered to files — and skips
entries outside the repository root). -/

def list_directory (dirPath : List String) (t : FSTree)
    (repoRoot : List String) : List FileEntry :=
  let dir_type := dirPath.getLastD ""
  (sortedPairs (descendants dirPath t)).filterMap (fun x =>
    if x.2.isFile then
      match normalize_path x.1 repoRoot with
      | some np => some ⟨dir_type, np, extract_description (some x.2.contentOf)⟩
      | none => none
    else none)

def JsonList.ofList : List Json → JsonList
  | [] => .nil
  | j :: tl => .cons j (JsonList.ofList tl)

/-- `files_to_dict` / the generated manifest as a parsed JSON value:
`{"files": [{"type": ..., "path": ..., "description": ...}, ...]}`. -/
def files_to_dict (files : List FileEntry) : Json :=
  .obj (.cons "files" (.arr (JsonList.ofList (files.map (fun f =>
    Json.obj (.cons "type" (.str f.type)
      (.cons "path" (.str f.path)
        (.cons "description" (.str f.description) .nil))))))) .nil)

/-! ## Claim theorems about the scanners -/

theorem mem_sortedPairs {x : List String × FSTree}
    {l : List (List String × FSTree)} (h : x ∈ sortedPairs l) : x ∈ l :=
  (List.perm_insertionSort pathPairLe l).subset h

/-- **C5** (confirmed).  The traversal mode is selected by the directory's
name: `should_scan_recursively` is false exactly for `"skills"` and
`"plugins"`; for those two names the scan lists only the immediate
subdirectories (sorted) and every produced entry has an empty
description; for every other name the scan lists exactly the recursively
discovered files, in sorted order.  The imperative `list_directory`
always scans deep: the items it iterates are exactly the recursively
discovered files, sorted. -/
theorem C5_traversal_mode_selection :
    (∀ d : String, should_scan_recursively d = false ↔
      (d = "skills" ∨ d = "plugins")) ∧
    (∀ (repoRoot dirPath : List String) (t : FSTree),
      (dirPath.getLastD "" = "skills" ∨ dirPath.getLastD "" = "plugins") →
      (∀ e ∈ (process_directory repoRoot dirPath t).2, e.description = "") ∧
      (∀ x ∈ scan_directory_files dirPath t
        (should_scan_recursively (dirPath.getLastD "")), x.2.isDir = true) ∧
      (scan_directory_files dirPath t
          (should_scan_recursively (dirPath.getLastD ""))).Perm
        ((childrenList dirPath t.entriesOf).filter (fun x => x.2.isDir)) ∧
      List.Sorted pathPairLe (scan_directory_files dirPath t
        (should_scan_recursively (dirPath.getLastD "")))) ∧
    (∀ (dirPath : List String) (t : FSTree),
      ¬(dirPath.getLastD "" = "skills" ∨ dirPath.getLastD "" = "plugins") →
      (∀ x ∈ scan_directory_files dirPath t
        (should_scan_recursively (dirPath.getLastD "")), x.2.isFile = true) ∧
      (scan_directory_files dirPath t
          (should_scan_recursively (dirPath.getLastD ""))).Perm
        ((descendants dirPath t).filter (fun x => x.2.isFile)) ∧
      List.Sorted pathPairLe (scan_directory_files dirPath t
        (should_scan_recursively (dirPath.getLastD "")))) ∧
    (∀ (dirPath : List String) (t : FSTree),
      ((sortedPairs (descendants dirPath t)).filter
          (fun x => x.2.isFile)).Perm
        ((descendants dirPath t).filter (fun x => x.2.isFile)) ∧
      List.Sorted pathPairLe ((sortedPairs (descendants dirPath t)).filter
        (fun x => x.2.isFile))) := by
  refine ⟨?_, ?_, ?_, ?_⟩
  · intro d
    simp [should_scan_recursively]
    tauto
  · intro repoRoot dirPath t hd
    have hmode : should_scan_recursively (dirPath.getLastD "") = false := by
      unfold should_scan_recursively
      cases hd with
      | inl h => rw [h]; rfl
      | inr h => rw [h]; rfl
    have hscan : scan_directory_files dirPath t
        (should_scan_recursively (dirPath.getLastD "")) =
        sortedPairs ((childrenList dirPath t.entriesOf).filter
          (fun x => x.2.isDir)) := by
      rw [hmode]
      rfl
    have hdir : ∀ x ∈ scan_directory_files dirPath t
        (should_scan_recursively (dirPath.getLastD "")), x.2.isDir = true := by
      intro x hx
      rw [hscan] at hx
      exact (List.mem_filter.mp (mem_sortedPairs hx)).2
    refine ⟨?_, hdir, ?_, ?_⟩
    · intro e he
      simp only [process_directory] at he
      rw [List.mem_filterMap] at he
      obtain ⟨x, hx, hc⟩ := he
      have hxd := hdir x hx
      unfold create_file_entry at hc
      cases hn : normalize_path x.1 repoRoot with
      | none => rw [hn] at hc; cases hc
      | some np =>
        rw [hn] at hc
        simp only [Option.some_inj] at hc
        rw [← hc]
        simp [hxd]
    · rw [hscan]
      exact List.perm_insertionSort pathPairLe _
    · rw [hscan]
      exact List.sorted_insertionSort pathPairLe _
  · intro dirPath t hd
    have hmode : should_scan_recursively (dirPath.getLastD "") = true := by
      unfold should_scan_recursively
      rw [not_or] at hd
      have h1 : (dirPath.getLastD "" == "skills") = false :=
        beq_eq_false_iff_ne.mpr hd.1
      have h2 : (dirPath.getLastD "" == "plugins") = false :=
        beq_eq_false_iff_ne.mpr hd.2
      rw [h1, h2]
      rfl
    have hscan : scan_directory_files dirPath t
        (should_scan_recursively (dirPath.getLastD "")) =
        sortedPairs ((descendants dirPath t).filter (fun x => x.2.isFile)) := by
      rw [hmode]
      rfl
    refine ⟨?_, ?_, ?_⟩
    · intro x hx
      rw [hscan] at hx
      exact (List.mem_filter.mp (mem_sortedPairs hx)).2
    · rw [hscan]
      exact List.perm_insertionSort pathPairLe _
    · rw [hscan]
      exact List.sorted_insertionSort pathPairLe _
  · intro dirPath t
    constructor
    · exact (List.perm_insertionSort pathPairLe _).filter _
    · exact List.Pairwise.sublist (List.filter_sublist _)
        (List.sorted_insertionSort pathPairLe _)

/-- Witness for C5: a `skills` directory lists its subdirectory with an
empty description; a `prompts` directory lists its file. -/
theorem C5_witness :
    (should_scan_recursively "plugins" = false ↔
      ("plugins" = "skills" ∨ "plugins" = "plugins")) ∧
    (∀ e ∈ (process_directory [] ["skills"]
      (FSTree.dir (.cons "sub" (.dir .nil) (.cons "f.md" (.file "x") .nil)))).2,
      e.description = "") ∧
    (∀ x ∈ scan_directory_files ["prompts"]
      (FSTree.dir (.cons "a.md" (.file "x") .nil))
      (should_scan_recursively (["prompts"].getLastD "")), x.2.isFile = true) :=
  ⟨C5_traversal_mode_selection.1 "plugins",
   (C5_traversal_mode_selection.2.1 [] ["skills"]
     (FSTree.dir (.cons "sub" (.dir .nil) (.cons "f.md" (.file "x") .nil)))
     (by decide)).1,
   (C5_traversal_mode_selection.2.2.1 ["prompts"]
     (FSTree.dir (.cons "a.md" (.file "x") .nil)) (by decide)).1⟩

theorem replaceSlash_no_slash (l : List Char) : '/' ∉ replaceSlashChars l := by
  intro h
  rw [replaceSlashChars, List.mem_map] at h
  obtain ⟨c, _, hc⟩ := h
  by_cases hcs : c = '/'
  · rw [if_pos hcs] at hc
    cases hc
  · rw [if_neg hcs] at hc
    exact hcs hc

theorem normalize_path_no_slash (fileParts repoRoot : List String) (np : String)
    (h : normalize_path fileParts repoRoot = some np) : '/' ∉ np.data := by
  unfold normalize_path at h
  by_cases hp : repoRoot.isPrefixOf fileParts = true
  · rw [if_pos hp] at h
    simp only [Option.some_inj] at h
    rw [← h]
    exact replaceSlash_no_slash _
  · rw [if_neg hp] at h
    cases h

/-- **C5**-adjacent invariant, claim **C8** (confirmed): every `FileEntry`
path produced by either scanner contains no forward slash — the relative
path is written with every `/` replaced by `\`. -/
theorem C8_backslash_paths :
    (∀ (repoRoot dirPath : List String) (t : FSTree) (e : FileEntry),
      e ∈ (process_directory repoRoot dirPath t).2 → '/' ∉ e.path.data) ∧
    (∀ (dirPath : List String) (t : FSTree) (repoRoot : List String)
      (e : FileEntry), e ∈ list_directory dirPath t repoRoot →
        '/' ∉ e.path.data) ∧
    (∀ (fileParts repoRoot : List String) (np : String),
      normalize_path fileParts repoRoot = some np → '/' ∉ np.data) := by
  refine ⟨?_, ?_, normalize_path_no_slash⟩
  · intro repoRoot dirPath t e he
    simp only [process_directory] at he
    rw [List.mem_filterMap] at he
    obtain ⟨x, _, hc⟩ := he
    unfold create_file_entry at hc
    cases hn : normalize_path x.1 repoRoot with
    | none => rw [hn] at hc; cases hc
    | some np =>
      rw [hn] at hc
      simp only [Option.some_inj] at hc
      rw [← hc]
      exact normalize_path_no_slash x.1 repoRoot np hn
  · intro dirPath t repoRoot e he
    simp only [list_directory] at he
    rw [List.mem_filterMap] at he
    obtain ⟨x, _, hc⟩ := he
    by_cases hf : x.2.isFile = true
    · rw [if_pos hf] at hc
      cases hn : normalize_path x.1 repoRoot with
      | none => rw [hn] at hc; cases hc
      | some np =>
        rw [hn] at hc
        simp only [Option.some_inj] at hc
        rw [← hc]
        exact normalize_path_no_slash x.1 repoRoot np hn
    · rw [if_neg hf] at hc
      cases hc

/-- Witness for C8: the single entry generated for `prompts/a.md` has path
`prompts\a.md`, without a forward slash. -/
theorem C8_witness :
    '/' ∉ (FileEntry.mk "prompts" "prompts\\a.md" "").path.data :=
  C8_backslash_paths.1 [] ["prompts"]
    (FSTree.dir (.cons "a.md" (.file "x") .nil))
    (FileEntry.mk "prompts" "prompts\\a.md" "") (by decide)

/-! ## Round trip (claim C9)

The manifest fixes backslash separators; the copier's `Path(p)` and
`repo_root / rel` are resolved under Windows pathname semantics
(`parsePath`), the semantics under which the manifest's fixed format is
meaningful for its downstream consumer. -/

theorem splitP_no_sep (p : Char → Bool) :
    ∀ l : List Char, (∀ c ∈ l, p c = false) → splitP p l = [l]
  | [], _ => rfl
  | c :: rest, h => by
    rw [splitP_cons_neg p c rest (by simp [h c (List.mem_cons_self c rest)]),
      splitP_no_sep p rest (fun x hx => h x (List.mem_cons_of_mem c hx))]

/-- A usable file-system component: non-empty and free of separators. -/
def goodName (s : String) : Bool :=
  !s.data.isEmpty && s.data.all (fun c => !isSepChar c)

theorem goodName_ne_nil (s : String) (h : goodName s = true) : s.data ≠ [] := by
  unfold goodName at h
  rw [Bool.and_eq_true] at h
  intro hn
  rw [hn] at h
  cases h.1

theorem goodName_no_sep (s : String) (h : goodName s = true) :
    ∀ c ∈ s.data, isSepChar c = false := by
  unfold goodName at h
  rw [Bool.and_eq_true, List.all_eq_true] at h
  intro c hc
  have := h.2 c hc
  simpa using this

theorem replaceSlash_id :
    ∀ l : List Char, (∀ c ∈ l, isSepChar c = false) → replaceSlashChars l = l
  | [], _ => rfl
  | c :: tl, h => by
    have hcs := h c (List.mem_cons_self c tl)
    unfold isSepChar at hcs
    rw [Bool.or_eq_false_iff] at hcs
    have hns : ¬ c = '/' := by
      intro he
      rw [he] at hcs
      cases hcs.2
    unfold replaceSlashChars
    rw [List.map_cons, if_neg hns]
    have htl := replaceSlash_id tl (fun x hx => h x (List.mem_cons_of_mem c hx))
    unfold replaceSlashChars at htl
    rw [htl]

theorem entryObj_extract (t p d : String) :
    extractPaths (Json.obj (.cons "type" (.str t) (.cons "path" (.str p)
      (.cons "description" (.str d) .nil)))) = [p] := by
  simp [extractPaths, JsonFields.hasKey, JsonFields.lookup]

theorem entryObj_extractF (t p d : String) (hp : ¬ p = "") :
    extractPathsF (Json.obj (.cons "type" (.str t) (.cons "path" (.str p)
      (.cons "description" (.str d) .nil)))) = [p] := by
  simp [extractPathsF, JsonFields.hasKey, JsonFields.lookup, Json.truthy, hp]

theorem extractPathsList_entries :
    ∀ entries : List FileEntry,
      extractPathsList (JsonList.ofList (entries.map (fun f =>
        Json.obj (.cons "type" (.str f.type)
          (.cons "path" (.str f.path)
            (.cons "description" (.str f.description) .nil)))))) =
        entries.map (fun e => e.path)
  | [] => rfl
  | e :: tl => by
    simp only [List.map_cons, JsonList.ofList]
    rw [show extractPathsList (.cons (Json.obj (.cons "type" (.str e.type)
      (.cons "path" (.str e.path)
        (.cons "description" (.str e.description) .nil))))
      (JsonList.ofList (tl.map _))) =
      extractPaths (Json.obj (.cons "type" (.str e.type)
        (.cons "path" (.str e.path)
          (.cons "description" (.str e.description) .nil)))) ++
      extractPathsList (JsonList.ofList (tl.map _)) from rfl]
    rw [entryObj_extract, extractPathsList_entries tl]
    rfl

theorem extractPathsFList_entries :
    ∀ entries : List FileEntry, (∀ e ∈ entries, ¬ e.path = "") →
      extractPathsFList (JsonList.ofList (entries.map (fun f =>
        Json.obj (.cons "type" (.str f.type)
          (.cons "path" (.str f.path)
            (.cons "description" (.str f.description) .nil)))))) =
        entries.map (fun e => e.path)
  | [], _ => rfl
  | e :: tl, h => by
    simp only [List.map_cons, JsonList.ofList]
    rw [show extractPathsFList (.cons (Json.obj (.cons "type" (.str e.type)
      (.cons "path" (.str e.path)
        (.cons "description" (.str e.description) .nil))))
      (JsonList.ofList (tl.map _))) =
      extractPathsF (Json.obj (.cons "type" (.str e.type)
        (.cons "path" (.str e.path)
          (.cons "description" (.str e.description) .nil)))) ++
      extractPathsFList (JsonList.ofList (tl.map _)) from rfl]
    rw [entryObj_extractF e.type e.path e.description
      (h e (List.mem_cons_self e tl))]
    rw [extractPathsFList_entries tl (fun x hx => h x (List.mem_cons_of_mem e hx))]
    rfl

/-- Both extractors applied to a generated manifest return exactly the
entry paths, in order (the functional one provided no path is empty). -/
theorem extract_files_to_dict (entries : List FileEntry) :
    extractPaths (files_to_dict entries) = entries.map (fun e => e.path) ∧
    ((∀ e ∈ entries, ¬ e.path = "") →
      extractPathsF (files_to_dict entries) = entries.map (fun e => e.path)) := by
  constructor
  · rw [show extractPaths (files_to_dict entries) =
      extractPathsFiles (.cons "files" (.arr (JsonList.ofList (entries.map
        (fun f => Json.obj (.cons "type" (.str f.type)
          (.cons "path" (.str f.path)
            (.cons "description" (.str f.description) .nil))))))) .nil) from by
        simp [files_to_dict, extractPaths, JsonFields.hasKey]]
    rw [show extractPathsFiles (.cons "files" (.arr (JsonList.ofList
      (entries.map (fun f => Json.obj (.cons "type" (.str f.type)
        (.cons "path" (.str f.path)
          (.cons "description" (.str f.description) .nil))))))) .nil) =
      extractPathsList (JsonList.ofList (entries.map (fun f =>
        Json.obj (.cons "type" (.str f.type)
          (.cons "path" (.str f.path)
            (.cons "description" (.str f.description) .nil)))))) from by
        simp [extractPathsFiles, extractPaths]]
    exact extractPathsList_entries entries
  · intro h
    rw [show extractPathsF (files_to_dict entries) =
      extractPathsFFiles (.cons "files" (.arr (JsonList.ofList (entries.map
        (fun f => Json.obj (.cons "type" (.str f.type)
          (.cons "path" (.str f.path)
            (.cons "description" (.str f.description) .nil))))))) .nil) from by
        simp [files_to_dict, extractPathsF, JsonFields.hasKey]]
    rw [show extractPathsFFiles (.cons "files" (.arr (JsonList.ofList
      (entries.map (fun f => Json.obj (.cons "type" (.str f.type)
        (.cons "path" (.str f.path)
          (.cons "description" (.str f.description) .nil))))))) .nil) =
      extractPathsFList (JsonList.ofList (entries.map (fun f =>
        Json.obj (.cons "type" (.str f.type)
          (.cons "path" (.str f.path)
            (.cons "description" (.str f.description) .nil)))))) from by
        simp [extractPathsFFiles, extractPathsF]]
    exact extractPathsFList_entries entries h

/-- The markdown file of the round-trip scenario. -/
def roundTripContent : String := "---\ndescription: \"hello\"\n---\nbody"

/-- A scanned directory holding exactly that one file. -/
def roundTripTree (fname : String) : FSTree :=
  .dir (.cons fname (.file roundTripContent) .nil)

/-- The manifest entry the scan is expected to produce. -/
def roundTripEntry (d fname : String) : FileEntry :=
  ⟨d, String.mk (d.data ++ '\\' :: fname.data), "hello"⟩

/-- The copier-side filesystem: the same file at `repoRoot/d/fname`. -/
def roundTripFS (R : List String) (d fname : String) : FS :=
  ⟨[(⟨true, R ++ [d, fname]⟩, roundTripContent)], []⟩

/-- **C9.** Round trip: scanning a repository whose category directory `d`
contains the single markdown file `fname` with frontmatter description
"hello" produces exactly one manifest entry (type `d`, backslash path,
description "hello"); both extractors applied to the generated manifest
return exactly that entry's path; and the copier's source resolution
`repo_root / Path(p)` (Windows pathname semantics, the semantics of the
manifest's fixed backslash format) maps that path back to the scanned
file, whose contents the filesystem then yields. `d` and `fname` are any
separator-free non-empty names with `d` not a shallow-mode category. -/
theorem C9_roundtrip (R : List String) (d fname : String)
    (hd : goodName d = true) (hf : goodName fname = true)
    (hdeep : ¬ (d = "skills" ∨ d = "plugins")) :
    (process_directory R (R ++ [d]) (roundTripTree fname)).2 =
      [roundTripEntry d fname] ∧
    extractPaths (files_to_dict [roundTripEntry d fname]) =
      [(roundTripEntry d fname).path] ∧
    extractPathsF (files_to_dict [roundTripEntry d fname]) =
      [(roundTripEntry d fname).path] ∧
    PPath.join ⟨true, R⟩ (parsePath (roundTripEntry d fname).path) =
      ⟨true, R ++ [d, fname]⟩ ∧
    (roundTripFS R d fname).get
      (PPath.join ⟨true, R⟩ (parsePath (roundTripEntry d fname).path)) =
      some roundTripContent := by
  have hdnil := goodName_ne_nil d hd
  have hfnil := goodName_ne_nil fname hf
  have hdsep := goodName_no_sep d hd
  have hfsep := goodName_no_sep fname hf
  have hmk : ∀ s : String, String.mk s.data = s := fun s => by cases s; rfl
  have hdesc : extract_description (some roundTripContent) = "hello" := by decide
  have hmode : should_scan_recursively d = true := by
    unfold should_scan_recursively
    have h1 : (d == "skills") = false :=
      beq_eq_false_iff_ne.mpr (fun h => hdeep (Or.inl h))
    have h2 : (d == "plugins") = false :=
      beq_eq_false_iff_ne.mpr (fun h => hdeep (Or.inr h))
    rw [h1, h2]
    rfl
  have hnorm : normalize_path (R ++ [d, fname]) R =
      some (String.mk (d.data ++ '\\' :: fname.data)) := by
    unfold normalize_path
    rw [if_pos (by rw [List.isPrefixOf_iff_prefix]; exact List.prefix_append R [d, fname])]
    rw [List.drop_left]
    rw [show ([d, fname].map String.data) = [d.data, fname.data] from rfl]
    rw [show joinSep '/' [d.data, fname.data] = d.data ++ '/' :: fname.data from rfl]
    rw [show replaceSlashChars (d.data ++ '/' :: fname.data) =
        replaceSlashChars d.data ++ '\\' :: replaceSlashChars fname.data from by
      simp [replaceSlashChars]]
    rw [replaceSlash_id d.data hdsep, replaceSlash_id fname.data hfsep]
  have hcreate : create_file_entry (R ++ [d, fname]) (FSTree.file roundTripContent)
      R d = some (roundTripEntry d fname) := by
    unfold create_file_entry
    rw [hnorm]
    show some (FileEntry.mk d (String.mk (d.data ++ '\\' :: fname.data))
      (extract_description (some roundTripContent))) = some (roundTripEntry d fname)
    rw [hdesc]
    rfl
  have hscan : scan_directory_files (R ++ [d]) (roundTripTree fname) true =
      [((R ++ [d]) ++ [fname], FSTree.file roundTripContent)] := rfl
  have hproc : (process_directory R (R ++ [d]) (roundTripTree fname)).2 =
      [roundTripEntry d fname] := by
    have hstep : (process_directory R (R ++ [d]) (roundTripTree fname)).2 =
        (scan_directory_files (R ++ [d]) (roundTripTree fname)
          (should_scan_recursively ((R ++ [d]).getLastD ""))).filterMap
          (fun x => create_file_entry x.1 x.2 R ((R ++ [d]).getLastD "")) := rfl
    rw [hstep, List.getLastD_concat, hmode, hscan]
    simp only [List.filterMap_cons, List.filterMap_nil]
    rw [show (R ++ [d]) ++ [fname] = R ++ [d, fname] from by simp, hcreate]
  obtain ⟨c, ds, hdd⟩ := List.exists_cons_of_ne_nil hdnil
  have hsplit : splitP isSepChar (d.data ++ '\\' :: fname.data) =
      [d.data, fname.data] := by
    rw [splitP_append_sep isSepChar '\\' (by decide) d.data fname.data]
    rw [splitP_no_sep isSepChar d.data hdsep,
      splitP_no_sep isSepChar fname.data hfsep]
    rfl
  have hfil : ([d.data, fname.data].filter (fun g => g ≠ [])) =
      [d.data, fname.data] := by
    rw [List.filter_eq_self]
    intro a ha
    rcases List.mem_cons.mp ha with h | h
    · subst h
      exact decide_eq_true hdnil
    · rw [List.mem_singleton] at h
      subst h
      exact decide_eq_true hfnil
  have h1 : (parsePath (String.mk (d.data ++ '\\' :: fname.data))).absolute = false := by
    show (match d.data ++ '\\' :: fname.data with
      | c :: _ => isSepChar c
      | [] => false) = false
    rw [hdd]
    show isSepChar c = false
    exact hdsep c (hdd ▸ List.mem_cons_self c ds)
  have h2 : (parsePath (String.mk (d.data ++ '\\' :: fname.data))).parts =
      [d, fname] := by
    show ((splitP isSepChar (d.data ++ '\\' :: fname.data)).filter
      (fun g => g ≠ [])).map (fun g => String.mk g) = [d, fname]
    rw [hsplit, hfil]
    show [String.mk d.data, String.mk fname.data] = [d, fname]
    rw [hmk d, hmk fname]
  have hparse : parsePath (String.mk (d.data ++ '\\' :: fname.data)) =
      ⟨false, [d, fname]⟩ := by
    rw [show parsePath (String.mk (d.data ++ '\\' :: fname.data)) =
      ⟨(parsePath (String.mk (d.data ++ '\\' :: fname.data))).absolute,
       (parsePath (String.mk (d.data ++ '\\' :: fname.data))).parts⟩ from rfl]
    rw [h1, h2]
  have hget : (roundTripFS R d fname).get ⟨true, R ++ [d, fname]⟩ =
      some roundTripContent := by
    show (if (⟨true, R ++ [d, fname]⟩ : PPath) = ⟨true, R ++ [d, fname]⟩ then
      some roundTripContent else fsFind [] ⟨true, R ++ [d, fname]⟩) =
      some roundTripContent
    rw [if_pos rfl]
  have hne : ∀ e ∈ [roundTripEntry d fname], ¬ e.path = "" := by
    intro e he
    rw [List.mem_singleton] at he
    subst he
    intro hcontr
    have h0 : d.data ++ '\\' :: fname.data = ([] : List Char) :=
      congrArg String.data hcontr
    simp at h0
  have hx := extract_files_to_dict [roundTripEntry d fname]
  refine ⟨hproc, hx.1, hx.2 hne, ?_, ?_⟩
  · rw [show (roundTripEntry d fname).path =
      String.mk (d.data ++ '\\' :: fname.data) from rfl, hparse]
    rfl
  · rw [show (roundTripEntry d fname).path =
      String.mk (d.data ++ '\\' :: fname.data) from rfl, hparse]
    exact hget

theorem C9_witness :
    goodName "prompts" = true ∧ goodName "a.md" = true ∧
    ¬ ("prompts" = "skills" ∨ "prompts" = "plugins") ∧
    ((process_directory ["r"] (["r"] ++ ["prompts"]) (roundTripTree "a.md")).2 =
        [roundTripEntry "prompts" "a.md"] ∧
      extractPaths (files_to_dict [roundTripEntry "prompts" "a.md"]) =
        [(roundTripEntry "prompts" "a.md").path] ∧
      extractPathsF (files_to_dict [roundTripEntry "prompts" "a.md"]) =
        [(roundTripEntry "prompts" "a.md").path] ∧
      PPath.join ⟨true, ["r"]⟩
          (parsePath (roundTripEntry "prompts" "a.md").path) =
        ⟨true, ["r"] ++ ["prompts", "a.md"]⟩ ∧
      (roundTripFS ["r"] "prompts" "a.md").get
          (PPath.join ⟨true, ["r"]⟩
            (parsePath (roundTripEntry "prompts" "a.md").path)) =
        some roundTripContent) :=
  ⟨by decide, by decide, by decide,
    C9_roundtrip ["r"] "prompts" "a.md" (by decide) (by decide) (by decide)⟩
